import Mathlib

/-!
# Hermes2D: adaptivity drivers, mesh copies, marking, Newton's loop, DOF enumeration,
the Kellogg benchmark and the generator of the gradient-Legendre tables

A shallow embedding of the adaptivity loops of `tutorial/10-adapt/main.cpp`,
`examples/layer/main.cpp` and `tutorial/15-newton-elliptic-adapt/main.cpp`, of
`NonlinSystem` (`src/nonlinsystem.cpp`), of the mesh copies exercised by
`tests/mesh/copy/main.cpp`, of the marking strategies of the adaptivity step, of
the enumeration of the degrees of freedom, of the exact solution and the mesh
set-up of `benchmarks/kellogg/main.cpp` and of the bubble tables printed by
`src/gen/gen_hc_gradleg.cpp`.

The loops are `do { ... } while (done == false)` blocks whose body calls into
the library (`calc_error`, `adapt`, `get_num_dofs`, `assign_dofs`); those calls
are the fields of a record the loop is run against, and the coarse mesh and space
the body mutates are the state `σ` passed from one pass to the next.  A `double`
is a rational number: the drivers only compare finite values.  Where a
derivative or the cosine is needed, the functions are generic in the field and
are read over the real numbers.

The first part of the file holds the definitions, the second the lemmas and the
theorems.
-/

namespace Hermes2D

/-! # Part 1: definitions -/

/-! ## The adaptivity loops -/

variable {σ ρ : Type}

/-- The statement `do { body } while (done == false)` with a pass counter that is
incremented once in every pass, cut off after `fuel` passes.  `body` maps the state
at the start of a pass to the state at its end and the value of `done`.  Returns
the final value of the counter and the final state, `none` when the fuel is used
up before `done` is set. -/
def do_while (body : σ → σ × Bool) : Nat → Nat → σ → Option (Nat × σ)
  | 0, _, _ => none
  | fuel + 1, counter, s =>
    let r := body s
    if r.2 then some (counter + 1, r.1) else do_while body fuel (counter + 1) r.1

/-- The two stopping constants of a driver: `ERR_STOP` (per cent) and `NDOF_STOP`. -/
structure StopConfig where
  ERR_STOP : ℚ
  NDOF_STOP : Int

/-! ### tutorial/10-adapt -/

/-- The library calls of the body of the loop of `tutorial/10-adapt/main.cpp`.
`σ` is the coarse mesh and space, `ρ` the reference mesh, space and solution.
* `build_reference` is lines 128-139 (`ref_mesh.copy`, `refine_all_elements`,
  `space.dup`, `copy_orders`, `solve_linear`);
* `calc_error` is `project_global`, `hp.set_solutions` and `hp.calc_error()`;
* `adapt` is `hp.adapt(&selector, THRESHOLD, STRATEGY, MESH_REGULARITY)`: the
  coarse mesh and space it leaves behind, and the `bool` it returns;
* `get_num_dofs` is `space.get_num_dofs()`. -/
structure AdaptCalls (σ ρ : Type) where
  build_reference : σ → ρ
  calc_error : σ → ρ → ℚ
  adapt : σ → ρ → σ × Bool
  get_num_dofs : σ → Int

/-- What one pass of the body leaves behind: the coarse mesh and space, the
reference problem it built, `err_est`, whether `hp.adapt` was called, and `done`. -/
structure Pass (σ ρ : Type) where
  coarse : σ
  reference : ρ
  err_est : ℚ
  adapted : Bool
  done : Bool

/-- One pass of the body of the loop, lines 125-181 of `tutorial/10-adapt/main.cpp`. -/
def adapt_step (c : AdaptCalls σ ρ) (k : StopConfig) (s : σ) : Pass σ ρ :=
  let ref := c.build_reference s
  let e := c.calc_error s ref * 100
  if e < k.ERR_STOP then
    { coarse := s, reference := ref, err_est := e, adapted := false, done := true }
  else
    let r := c.adapt s ref
    let done := r.2
    let done := if c.get_num_dofs r.1 ≥ k.NDOF_STOP then true else done
    { coarse := r.1, reference := ref, err_est := e, adapted := true, done := done }

/-- The adaptivity loop of `tutorial/10-adapt/main.cpp`, lines 122-183, with `as`
as its counter. -/
def adapt_loop (c : AdaptCalls σ ρ) (k : StopConfig) (fuel as : Nat) (s : σ) : Option (Nat × σ) :=
  do_while (fun s => ((adapt_step c k s).coarse, (adapt_step c k s).done)) fuel as s

/-- The value of `err_est` in a pass that starts from the coarse state `s`:
`hp.calc_error() * 100` (line 160). -/
def err_est (c : AdaptCalls σ ρ) (s : σ) : ℚ :=
  c.calc_error s (c.build_reference s) * 100

/-- The coarse state `hp.adapt` leaves behind when called in a pass that starts from `s`. -/
def adapted_state (c : AdaptCalls σ ρ) (s : σ) : σ :=
  (c.adapt s (c.build_reference s)).1

/-- The coarse state at the start of pass `n + 1`, as long as every earlier
pass went through `hp.adapt`. -/
def coarse_at (c : AdaptCalls σ ρ) (s : σ) (n : Nat) : σ :=
  (adapted_state c)^[n] s

/-- The stopping condition of a pass that starts from `s`, as the code has it:
`err_est < ERR_STOP`, or `hp.adapt` returned `true`, or the coarse space has at
least `NDOF_STOP` degrees of freedom after the adaptation. -/
def stops (c : AdaptCalls σ ρ) (k : StopConfig) (s : σ) : Prop :=
  err_est c s < k.ERR_STOP ∨
    (c.adapt s (c.build_reference s)).2 = true ∨
    k.NDOF_STOP ≤ c.get_num_dofs (adapted_state c s)

instance (c : AdaptCalls σ ρ) (k : StopConfig) (s : σ) : Decidable (stops c k s) :=
  inferInstanceAs (Decidable (err_est c s < k.ERR_STOP ∨
    (c.adapt s (c.build_reference s)).2 = true ∨
    k.NDOF_STOP ≤ c.get_num_dofs (adapted_state c s)))

/-! ### examples/layer -/

/-- The library calls of the body of the loop of `examples/layer/main.cpp`.
* `calc_error` is the coarse solve (`ls.assemble`, `ls.solve`), the fine solve
  (`rs.assemble`, `rs.solve`) and `hp.calc_error(&sln_coarse, &sln_fine)`;
* `adapt` is `hp.adapt(THRESHOLD, STRATEGY, ADAPT_TYPE, ISO_ONLY, MESH_REGULARITY)`,
  whose result the driver discards;
* `assign_dofs` is `space.assign_dofs()`: the renumbered space and the count. -/
structure LayerCalls (σ : Type) where
  calc_error : σ → ℚ
  adapt : σ → σ
  assign_dofs : σ → σ × Int

/-- One pass of the body of the loop, lines 157-213 of `examples/layer/main.cpp`:
the state at the end of the pass and `done` (which is `false` when a pass starts). -/
def layer_step (c : LayerCalls σ) (k : StopConfig) (s : σ) : σ × Bool :=
  let done := false
  let err_est := c.calc_error s * 100
  if err_est < k.ERR_STOP then (s, true)
  else
    let r := c.assign_dofs (c.adapt s)
    let ndofs := r.2
    (r.1, if ndofs ≥ k.NDOF_STOP then true else done)

/-- The adaptivity loop of `examples/layer/main.cpp`, lines 151-215, with `it` as
its counter. -/
def layer_loop (c : LayerCalls σ) (k : StopConfig) (fuel it : Nat) (s : σ) : Option (Nat × σ) :=
  do_while (layer_step c k) fuel it s

/-- The space after `hp.adapt` and `assign_dofs` in a pass that starts from `s`. -/
def layer_next (c : LayerCalls σ) (s : σ) : σ :=
  (c.assign_dofs (c.adapt s)).1

/-- The value of `ndofs` in a pass that starts from `s` and adapts the mesh. -/
def layer_ndofs (c : LayerCalls σ) (s : σ) : Int :=
  (c.assign_dofs (c.adapt s)).2

/-- The space at the start of pass `n + 1`, as long as every earlier pass adapted the mesh. -/
def layer_at (c : LayerCalls σ) (s : σ) (n : Nat) : σ :=
  (layer_next c)^[n] s

/-! ### Sample runs

The coarse state of the sample runs is the number of degrees of freedom of the
coarse space; the reference problem carries nothing. -/

/-- The constants of `tutorial/10-adapt/main.cpp`: `ERR_STOP = 1.0`, `NDOF_STOP = 60000`. -/
def tutorial_config : StopConfig := { ERR_STOP := 1, NDOF_STOP := 60000 }

/-- The constants of `examples/layer/main.cpp` with the tolerance set to zero:
`ERR_STOP = 0`, `NDOF_STOP = 40000`. -/
def layer_config : StopConfig := { ERR_STOP := 0, NDOF_STOP := 40000 }

/-- A run in which the error estimate is 5 per cent and `hp.adapt` finds nothing
it can refine: it leaves the space alone and returns `true`. -/
def calls_nothing_refined : AdaptCalls Nat Unit :=
  { build_reference := fun _ => (),
    calc_error := fun _ _ => 5 / 100,
    adapt := fun s _ => (s, true),
    get_num_dofs := fun s => (s : Int) }

/-- A run in which the error estimate is exactly 1 per cent and every call of
`hp.adapt` adds 50 degrees of freedom and returns `false`. -/
def calls_on_tolerance : AdaptCalls Nat Unit :=
  { build_reference := fun _ => (),
    calc_error := fun _ _ => 1 / 100,
    adapt := fun s _ => (s + 50, false),
    get_num_dofs := fun s => (s : Int) }

/-- A run in which the error estimate stays at 10 per cent and `hp.adapt`
changes nothing and returns `false`. -/
def calls_stalled : AdaptCalls Nat Unit :=
  { build_reference := fun _ => (),
    calc_error := fun _ _ => 10 / 100,
    adapt := fun s _ => (s, false),
    get_num_dofs := fun s => (s : Int) }

/-- A run in which the error estimate stays at 10 per cent and every call of
`hp.adapt` adds 25000 degrees of freedom and returns `false`. -/
def calls_growing : AdaptCalls Nat Unit :=
  { build_reference := fun _ => (),
    calc_error := fun _ _ => 10 / 100,
    adapt := fun s _ => (s + 25000, false),
    get_num_dofs := fun s => (s : Int) }

/-- A run in which the error estimate stays at 10 per cent and `hp.adapt` adds 50
degrees of freedom and returns `false` as long as the space has fewer than 200
of them, and from then on leaves the space alone and returns `true`. -/
def calls_refined_out : AdaptCalls Nat Unit :=
  { build_reference := fun _ => (),
    calc_error := fun _ _ => 10 / 100,
    adapt := fun s _ => if s < 200 then (s + 50, false) else (s, true),
    get_num_dofs := fun s => (s : Int) }

/-- A run of the layer driver in which the error estimate stays at 10 per cent
and every adaptation adds 10000 degrees of freedom. -/
def layer_calls_growing : LayerCalls Nat :=
  { calc_error := fun _ => 10 / 100,
    adapt := fun s => s + 10000,
    assign_dofs := fun s => (s, (s : Int)) }

/-! ## The mesh hierarchy

The `Mesh` and `Space` classes are not among the sources: the drivers and the
test `tests/mesh/copy/main.cpp` only call them.  The definitions of this section
follow the specification (sections 3, 4.1, 4.3 and 9): a mesh is an arena of
elements addressed by stable integer ids, the base elements come first, refined
elements stay in the arena as inactive parents of their sons. -/

/-- Modelled from the spec: the shape of an element, "triangle or quadrilateral"
(`Element` is declared in the missing `mesh.h`). -/
inductive ElementKind where
  | triangle
  | quad
deriving DecidableEq

/-- Modelled from the spec: the `mode` of `refine_element`, "isotropic, or one of
two anisotropic splits for quads" (the missing `mesh.h`). -/
inductive Refinement where
  | iso
  | aniso_h
  | aniso_v
deriving DecidableEq

/-- Modelled from the spec: the `Element` of the missing `mesh.h`, with the fields
the copies and the refinement use: id, shape, active flag, parent and child
links, curvature flag. -/
structure Element where
  id : Nat
  kind : ElementKind
  active : Bool
  parent : Option Nat
  sons : List Nat
  curved : Bool
deriving DecidableEq

/-- Modelled from the spec: the `Mesh` of the missing `mesh.h`: the arena of
elements, addressed by id, and the number of base elements, which take the first
ids of the arena. -/
structure Mesh where
  elements : List Element
  nbase : Nat
  nbase_le : nbase ≤ elements.length

/-- Modelled from the spec: `Mesh::get_max_element_id` (missing `mesh.h`), the
size of the arena, "the source's total element count". -/
def Mesh.get_max_element_id (m : Mesh) : Nat := m.elements.length

/-- Modelled from the spec: `Mesh::get_num_base_elements` (missing `mesh.h`),
"the source's base element count". -/
def Mesh.get_num_base_elements (m : Mesh) : Nat := m.nbase

/-- Whether `id` is the id of an active element of the mesh. -/
def Mesh.is_active (m : Mesh) (id : Nat) : Bool :=
  match m.elements[id]? with
  | some e => e.active
  | none => false

/-- Modelled from the spec: a mesh as the loader leaves it (the mesh loader is
outside the core): one active base element for each entry, no refinement. -/
def Mesh.of_base (kinds : List ElementKind) : Mesh :=
  { elements := kinds.enum.map fun ie =>
      { id := ie.1, kind := ie.2, active := true, parent := none, sons := [], curved := false },
    nbase := kinds.length,
    nbase_le := by simp }

/-- Modelled from the spec: `Mesh::copy` (missing `mesh.cpp`), "a full duplicate". -/
def Mesh.copy (src : Mesh) : Mesh :=
  { elements := src.elements, nbase := src.nbase, nbase_le := src.nbase_le }

/-- Modelled from the spec: `Mesh::copy_base` (missing `mesh.cpp`), "a duplicate
containing only coarsest (un-refined) elements": the base elements, active and
without sons. -/
def Mesh.copy_base (src : Mesh) : Mesh :=
  { elements := (src.elements.take src.nbase).map fun e => { e with active := true, sons := [] },
    nbase := src.nbase,
    nbase_le := by simp [src.nbase_le] }

/-- Modelled from the spec: `Mesh::copy_refine` (missing `mesh.cpp`), which
"copies the refined elements of another mesh" (`tests/mesh/copy`): the elements
that refinement has created, which follow the base elements in the arena.  They
are renumbered from zero and keep their shape, their active flag and the links
among themselves; those whose parent was a base element have no parent in the
duplicate and are its base elements.  For a mesh that was refined once these are
the "refined leaf elements" of the spec (lemma `copy_refine_leaves`), and the
invariant `copy_refine(M).max_element_id + M.num_base_elements ==
M.max_element_id` is the one the spec states for all meshes `M`. -/
def Mesh.copy_refine (src : Mesh) : Mesh :=
  { elements := (src.elements.drop src.nbase).enum.map fun ie =>
      { id := ie.1, kind := ie.2.kind, active := ie.2.active,
        parent := ie.2.parent.bind fun p => if src.nbase ≤ p then some (p - src.nbase) else none,
        sons := ie.2.sons.map fun s => s - src.nbase,
        curved := ie.2.curved },
    nbase := (src.elements.drop src.nbase).countP fun e =>
      match e.parent with
      | some p => decide (p < src.nbase)
      | none => true,
    nbase_le := by
      simp only [List.length_map, List.enum_length]
      exact List.countP_le_length _ }

/-- Modelled from the spec: the number of children of a split (section 3): "4 for
iso quad split, 2 for iso triangle split, 2 for each anisotropic quad split"; the
mode only matters for quads. -/
def num_sons : ElementKind → Refinement → Nat
  | .quad, .iso => 4
  | .quad, _ => 2
  | .triangle, _ => 2

/-- The failures of `refine_element`. -/
inductive MeshError where
  | out_of_range
  | inactive
deriving DecidableEq

/-- The split of the active element `e` with id `id`: the sons are appended to the
arena, they inherit the shape and the curvature, and the parent becomes inactive. -/
def Mesh.split (m : Mesh) (id : Nat) (e : Element) (mode : Refinement) : Mesh :=
  { elements :=
      m.elements.set id
          { e with active := false,
                   sons := List.range' m.elements.length (num_sons e.kind mode) } ++
        (List.range' m.elements.length (num_sons e.kind mode)).map fun i =>
          { id := i, kind := e.kind, active := true, parent := some id, sons := [],
            curved := e.curved },
    nbase := m.nbase,
    nbase_le := by
      have := m.nbase_le
      simp only [List.length_append, List.length_set]
      omega }

/-- Modelled from the spec: `Mesh::refine_element` (missing `mesh.cpp`): "splits
an element according to `mode` ... marks parent inactive ... Fails (no-op + error)
if the element id is inactive or out of range."  Hanging-node regularity is not
enforced (`MESH_REGULARITY = -1`). -/
def Mesh.refine_element (m : Mesh) (id : Nat) (mode : Refinement) : Except MeshError Mesh :=
  match m.elements[id]? with
  | none => .error .out_of_range
  | some e => if e.active then .ok (m.split id e mode) else .error .inactive

/-- The mesh after a call of `refine_element`: unchanged when the call fails. -/
def Mesh.refined (m : Mesh) (id : Nat) (mode : Refinement) : Mesh :=
  match m.refine_element id mode with
  | .ok m' => m'
  | .error _ => m

/-- Modelled from the spec: `Mesh::refine_all_elements` (missing `mesh.cpp`):
"applies isotropic refinement to every currently active element": the elements
present when the call starts are visited in the order of their ids. -/
def Mesh.refine_all_elements (m : Mesh) : Mesh :=
  (List.range m.elements.length).foldl
    (fun acc id => if acc.is_active id then acc.refined id .iso else acc) m

/-- The state of `refine_all_elements` on `m` after the elements with ids below `k`
have been visited: the arena `R` is the old elements `olds` followed by the new
sons `news`; the visited old elements are inactive, the others are as in `m`, and
every new element is active and the son of an element that was active in `m`. -/
structure RefinedUpTo (m R : Mesh) (k : Nat) (olds news : List Element) : Prop where
  elements_eq : R.elements = olds ++ news
  olds_length : olds.length = m.elements.length
  nbase_eq : R.nbase = m.nbase
  visited_inactive : ∀ i e, i < k → olds[i]? = some e → e.active = false
  rest_same : ∀ i, k ≤ i → olds[i]? = m.elements[i]?
  news_active : ∀ e ∈ news, e.active = true ∧
    ∃ p pe, e.parent = some p ∧ m.elements[p]? = some pe ∧ pe.active = true

/-! ## The function space and the reference problem -/

/-- Modelled from the spec: the polynomial order of an element (section 3): "a
single integer for isotropic elements, or a pair (order_x, order_y) for
anisotropic quads". -/
inductive Order where
  | iso (p : Nat)
  | aniso (px py : Nat)
deriving DecidableEq

/-- The order "incremented by a fixed amount": every component goes up by `inc`. -/
def Order.increase : Order → Nat → Order
  | .iso p, inc => .iso (p + inc)
  | .aniso px py, inc => .aniso (px + inc) (py + inc)

/-- Modelled from the spec: the `Space` of the missing `space.h`, as far as the
reference problem needs it: the mesh it owns and the order of every element. -/
structure Space where
  mesh : Mesh
  order : Nat → Order

/-- Modelled from the spec: `Space::dup` (missing `space.cpp`), "a new Space over
that mesh"; `init` is the order such a space gives its elements, which the
specification leaves open. -/
def Space.dup (_s : Space) (mesh : Mesh) (init : Nat → Order) : Space :=
  { mesh := mesh, order := init }

/-- The active element of the coarse mesh that the element `id` of the reference
mesh lies in: `id` itself or the nearest of its ancestors that is an active
element of the coarse mesh. -/
def coarse_owner (coarse ref : Mesh) : Nat → Nat → Option Nat
  | 0, _ => none
  | fuel + 1, id =>
    if coarse.is_active id then some id
    else
      match ref.elements[id]? with
      | some e =>
        match e.parent with
        | some p => coarse_owner coarse ref fuel p
        | none => none
      | none => none

/-- Modelled from the spec: `Space::copy_orders` (missing `space.cpp`): "copying
per-element orders from the coarse space and optionally incrementing every order
by a fixed amount": an active element takes the order of the coarse element it
lies in, increased by `inc`. -/
def Space.copy_orders (s : Space) (coarse : Space) (inc : Nat) : Space :=
  { mesh := s.mesh,
    order := fun id =>
      if s.mesh.is_active id then
        match coarse_owner coarse.mesh s.mesh s.mesh.elements.length id with
        | some j => (coarse.order j).increase inc
        | none => s.order id
      else s.order id }

/-- Lines 128-136 of `tutorial/10-adapt/main.cpp`: the reference mesh and the
reference space built from the coarse space (whose mesh is `mesh`).  Returns the
coarse space as the calls leave it and the reference space. -/
def build_reference (init : Nat → Order) (space : Space) : Space × Space :=
  let ref_mesh := Mesh.copy space.mesh
  let ref_mesh := ref_mesh.refine_all_elements
  let ref_space := space.dup ref_mesh init
  let order_increase := 1
  let ref_space := ref_space.copy_orders space order_increase
  (space, ref_space)

/-- A mesh of two base elements, a quad and a triangle, as loaded. -/
def mesh_two : Mesh := Mesh.of_base [.quad, .triangle]

/-- A mesh of one base quad refined twice by `refine_all_elements`. -/
def mesh_twice_refined : Mesh :=
  (Mesh.of_base [.quad]).refine_all_elements.refine_all_elements

/-! ## Marking

`H1Adapt::adapt` is not among the sources; the drivers only describe its
strategies in the comments on `STRATEGY`.  The definitions of this section
follow the specification (section 4.5, MARKING).  The per-element errors come as
the list of pairs (element id, error) sorted by decreasing error that the error
estimator retains. -/

/-- Modelled from the spec: the test "accumulated error ≥ sqrt(THRESHOLD) × total
error" of strategy 0 (the missing `adapt.cpp`), with both sides squared so that it
stays within the rationals (see `limit_reached_iff_sqrt`). -/
def limit_reached (thr total acc : ℚ) : Prop :=
  thr * total ^ 2 ≤ acc ^ 2

instance (thr total acc : ℚ) : Decidable (limit_reached thr total acc) :=
  inferInstanceAs (Decidable (thr * total ^ 2 ≤ acc ^ 2))

/-- Modelled from the spec: strategy 0 of MARKING (the missing `adapt.cpp`):
"accumulate elements in decreasing-error order until accumulated error ≥
sqrt(THRESHOLD) × total error; ties (equal errors) are all included together".
`acc` is the error accumulated so far, `last` the error of the last element marked. -/
def mark_strategy0 (thr total : ℚ) : ℚ → Option ℚ → List (Nat × ℚ) → List (Nat × ℚ)
  | _, _, [] => []
  | acc, last, x :: rest =>
    if limit_reached thr total acc ∧ last ≠ some x.2 then []
    else x :: mark_strategy0 thr total (acc + x.2) (some x.2) rest

/-- The sum of the errors of a list of elements. -/
def error_sum (l : List (Nat × ℚ)) : ℚ := (l.map Prod.snd).sum

/-- The maximum single-element error (zero for no element). -/
def max_error (l : List (Nat × ℚ)) : ℚ := (l.map Prod.snd).foldr max 0

/-- Modelled from the spec: MARKING (the missing `adapt.cpp`), the elements
selected for refinement under `STRATEGY` 0, 1 or 2 from the sorted list of
per-element errors; `total` is the total error.
* Strategy 0: `mark_strategy0`.
* Strategy 1: "every element whose error exceeds THRESHOLD × (maximum
  single-element error)".
* Strategy 2: "every element whose error exceeds THRESHOLD (absolute)". -/
def mark (STRATEGY : Fin 3) (THRESHOLD total : ℚ) (sorted : List (Nat × ℚ)) : List (Nat × ℚ) :=
  match STRATEGY with
  | 0 => mark_strategy0 THRESHOLD total 0 none sorted
  | 1 => sorted.filter fun x => THRESHOLD * max_error sorted < x.2
  | 2 => sorted.filter fun x => THRESHOLD < x.2

/-- The error of the last element of `marked`, or `last` when `marked` is empty. -/
def last_error (last : Option ℚ) (marked : List (Nat × ℚ)) : Option ℚ :=
  match marked.getLast? with
  | some m => some m.2
  | none => last

/-- Sample errors: five elements with errors 5, 3, 3, 3 and 1. -/
def sample_errors : List (Nat × ℚ) := [(7, 5), (2, 3), (4, 3), (0, 3), (9, 1)]

/-! ## The nonlinear system (`src/nonlinsystem.cpp`)

`NonlinSystem` derives from `LinSystem`, whose sources (`linsystem.h`,
`linsystem.cpp`) are missing, as are `common.h` and the matrix classes.  The
members and calls of `LinSystem` that `nonlinsystem.cpp` uses are fields of the
records below; the calls into the missing code (`LinSystem::assemble`, the
linear solver, `sqrt`) are the fields of `NonlinCalls`.  A `scalar` is a real
number (the real build), a rational here; an array is a function on indices, of
which the code touches those below `ndof`. -/

/-- The fatal errors raised through the `error` macro in `nonlinsystem.cpp` and in
`tutorial/15-newton-elliptic-adapt/main.cpp`, one for each message; `helper` is
an error raised inside a call into the missing `LinSystem` code. -/
inductive Fatal where
  /-- Message: "Number of spaces does not match number of equations in LinSystem::LinSystem()." -/
  | spaces_mismatch
  /-- Message: "Parameter rhsonly = true has no meaning in NonlinSystem." -/
  | rhsonly_meaningless
  /-- Message: "Number of solutions does not match the number of equations in LinSystem::solve()." -/
  | solutions_mismatch
  /-- Message: "No matrix solver defined in NonlinSystem::solve()." -/
  | no_solver
  /-- Message: "Vec is NULL in NonlinSystem::solve()." -/
  | vec_null
  /-- Message: "Matrix size does not match vector length in NonlinSystem:solve()." -/
  | size_mismatch
  /-- Message: "Newton's method did not converge." -/
  | newton_not_converged
  | helper (code : Nat)
deriving DecidableEq

/-- Modelled from the spec: the `error` macro of the missing `common.h`: a
configuration error is "fatal, reported immediately, no recovery": the
computation ends with the error instead of a value. -/
def error {α : Type} (e : Fatal) : Except Fatal α := Except.error e

/-- The functions `sqr` and `magn` of the missing `common.h` for a real `scalar`:
the square and the absolute value. -/
def sqr (x : ℚ) : ℚ := x * x

/-- See `sqr`. -/
def magn (x : ℚ) : ℚ := |x|

/-- The matrix `A` (a `CooMatrix`, declared in the missing `matrix.h`): its size,
as `get_size()` returns it, and its entries. -/
structure CooMatrix where
  size : Int
  entry : Nat → Nat → ℚ

/-- A `Solution` as `set_fe_solution(space, pss, Vec)` leaves it: the index of
the space it is bound to and its coefficient vector. -/
structure Solution where
  space : Nat
  coef : Nat → ℚ

/-- The members of `LinSystem` that `nonlinsystem.cpp` reads and writes:
`wf->neq`, the `solver` pointer (`none` is `NULL`), the value of
`get_num_dofs()`, the matrix `A` (present: `solve` reads its size without
testing the pointer), the arrays `RHS` and `Vec` (`none` is `NULL`), and
`want_dir_contrib`. -/
structure LinSystem where
  neq : Int
  solver : Option Nat
  ndof : Int
  A : CooMatrix
  RHS : Nat → ℚ
  Vec : Option (Nat → ℚ)
  want_dir_contrib : Bool

/-- The state of a `NonlinSystem`: that of the `LinSystem` it derives from, and
`alpha`, `res_l2`, `res_l1`, `res_max`. -/
structure NonlinSystem extends LinSystem where
  alpha : ℚ
  res_l2 : ℚ
  res_l1 : ℚ
  res_max : ℚ

/-- The calls of `nonlinsystem.cpp` into missing code.
* `lin_assemble` is `LinSystem::assemble()`: "assemble J(Y_n) and store in A,
  assemble F(Y_n) and store in RHS"; it sees the `LinSystem` members and the
  previous Newton iterate that the weak form refers to (`&u_prev` in
  `tutorial/15-newton-elliptic-adapt/main.cpp`, lines 149-150), not `alpha`;
* `umfpack` is `solve_linear_system_scipy_umfpack(A, delta)`, which overwrites
  `delta` with the solution;
* `sqrt` is the `sqrt` of the C library. -/
structure NonlinCalls where
  lin_assemble : LinSystem → Solution → CooMatrix × (Nat → ℚ)
  umfpack : CooMatrix → (Nat → ℚ) → (Nat → ℚ)
  sqrt : ℚ → ℚ

/-- `NonlinSystem::init_nonlin`, lines 32-42. -/
def NonlinSystem.init_nonlin (lin : LinSystem) : NonlinSystem :=
  { toLinSystem := { lin with want_dir_contrib := false },
    alpha := 1, res_l2 := -1, res_l1 := -1, res_max := -1 }

/-- The three accumulators of the loop of lines 126-132: `res_l2` (still the sum
of squares), `res_l1` and `res_max`. -/
structure Norms where
  l2 : ℚ
  l1 : ℚ
  max : ℚ

/-- The loop of lines 126-132 over the first `n` entries of `RHS`. -/
def accumulate_norms (RHS : Nat → ℚ) (n : Nat) : Norms :=
  (List.range n).foldl
    (fun acc i =>
      { l2 := acc.l2 + sqr (RHS i),
        l1 := acc.l1 + magn (RHS i),
        max := if magn (RHS i) > acc.max then magn (RHS i) else acc.max })
    { l2 := 0, l1 := 0, max := 0 }

/-- `NonlinSystem::assemble(bool rhsonly)`, lines 117-138; `u_prev` is the previous
Newton iterate the weak form refers to. -/
def NonlinSystem.assemble (c : NonlinCalls) (u_prev : Solution) (sys : NonlinSystem)
    (rhsonly : Bool) : Except Fatal NonlinSystem :=
  let ndof := sys.ndof
  if rhsonly then error Fatal.rhsonly_meaningless
  else
    -- assemble J(Y_n) and store in A, assemble F(Y_n) and store in RHS
    let r := c.lin_assemble sys.toLinSystem u_prev
    -- calculate norms of the residual F(Y_n)
    let acc := accumulate_norms r.2 ndof.toNat
    let res_l2 := c.sqrt acc.l2
    -- multiply RHS by -alpha
    let RHS := fun i => if i < ndof.toNat then r.2 i * (-sys.alpha) else r.2 i
    Except.ok
      { toLinSystem := { sys.toLinSystem with A := r.1, RHS := RHS },
        alpha := sys.alpha, res_l2 := res_l2, res_l1 := acc.l1, res_max := acc.max }

/-- The accessor `get_residual_l2_norm()` of the missing `nonlinsystem.h`. -/
def NonlinSystem.get_residual_l2_norm (sys : NonlinSystem) : ℚ := sys.res_l2

/-- The first `n` entries of an array, as `memcpy(delta, RHS, sizeof(scalar) * ndof)`
copies them into a fresh array. -/
def copy_entries (v : Nat → ℚ) (n : Nat) : Nat → ℚ :=
  fun i => if i < n then v i else 0

/-- `NonlinSystem::solve(Tuple<Solution*> sln)`, lines 141-180: the value
returned, the system and the solutions as the call leaves them. -/
def NonlinSystem.solve (c : NonlinCalls) (sys : NonlinSystem) (sln : List Solution) :
    Except Fatal (Bool × NonlinSystem × List Solution) :=
  let n : Int := sln.length
  if n ≠ sys.neq then error Fatal.solutions_mismatch
  else if sys.solver = none then error Fatal.no_solver
  else
    match sys.Vec with
    | none => error Fatal.vec_null
    | some vec =>
      let ndof := sys.ndof
      if ndof ≠ sys.A.size then error Fatal.size_mismatch
      else
        let delta := c.umfpack sys.A (copy_entries sys.RHS ndof.toNat)
        -- add the increment dY_{n+1} to the previous solution vector
        let vec := fun i => if i < ndof.toNat then vec i + delta i else vec i
        -- copy the solution coefficient vectors into Solutions
        let sln := sln.enum.map fun is => ({ space := is.1, coef := vec } : Solution)
        Except.ok (true, { sys with Vec := some vec }, sln)

/-- The product of the matrix with a vector, row `i`. -/
def CooMatrix.mul_vec (A : CooMatrix) (x : Nat → ℚ) (i : Nat) : ℚ :=
  ((List.range A.size.toNat).map fun j => A.entry i j * x j).sum

/-- The vector `x` solves `A x = b`. -/
def CooMatrix.solved_by (A : CooMatrix) (x b : Nat → ℚ) : Prop :=
  ∀ i, i < A.size.toNat → A.mul_vec x i = b i

/-- How a loop that is cut off after some fuel ends: it returns a value, the
program ends with a fatal error, or the fuel is used up. -/
inductive Run (α : Type) where
  | returned (a : α)
  | fatal (e : Fatal)
  | out_of_fuel

/-- The largest value of an `int` (32 bits). -/
def INT_MAX : Int := 2147483647

/-- The value an `int` holds after an arithmetic result `x`: the representative
of `x` modulo `2^32` in `[-2^31, 2^31)`.  The C++ standard leaves the overflow of
`it++` undefined; the embedding takes the two's complement result. -/
def wrap_int (x : Int) : Int := (x + 2147483648) % 4294967296 - 2147483648

/-- The local variables of `NonlinSystem::solve_newton` (one equation), the
system and `*u_prev`; `assembled` (the iterates `assemble()` was called on) and
`solved` (the number of calls of `solve`) record the calls made so far. -/
structure NewtonState where
  it : Int
  res_l2_norm : ℚ
  sln_iter : Solution
  sys : NonlinSystem
  u_prev : Solution
  assembled : List Solution
  solved : Nat

/-- One pass of the body of the loop of `solve_newton`, lines 215-234; `it` is an
`int`, the filters `f1`, `f2`, `f3` are `NULL`, and the value `solve` returns is
not used. -/
def newton_iteration (c : NonlinCalls) (st : NewtonState) : Except Fatal NewtonState :=
  let it := wrap_int (st.it + 1)
  match st.sys.assemble c st.u_prev false with
  | Except.error e => Except.error e
  | Except.ok sys =>
    match sys.solve c [st.sln_iter] with
    | Except.error e => Except.error e
    | Except.ok r =>
      let sln_iter := r.2.2.headD st.sln_iter
      -- calculate the l2-norm of residual vector
      let res_l2_norm := r.2.1.get_residual_l2_norm
      -- save the new solution as "previous" for the next Newton's iteration
      Except.ok
        { it := it, res_l2_norm := res_l2_norm, sln_iter := sln_iter, sys := r.2.1,
          u_prev := sln_iter, assembled := st.assembled ++ [st.u_prev],
          solved := st.solved + 1 }

/-- The loop `do { ... } while (res_l2_norm > newton_tol && it <= newton_max_iter)`
of `solve_newton`, cut off after `fuel` passes.  The counter `it` is an `int`: each
pass leaves it within the range of `int` (see `wrap_int`), and `newton_max_iter`
is an `int` parameter. -/
def newton_loop (c : NonlinCalls) (newton_tol : ℚ) (newton_max_iter : Int) :
    Nat → NewtonState → Run NewtonState
  | 0, _ => Run.out_of_fuel
  | fuel + 1, st =>
    match newton_iteration c st with
    | Except.error e => Run.fatal e
    | Except.ok st =>
      if st.res_l2_norm > newton_tol ∧ st.it ≤ newton_max_iter then
        newton_loop c newton_tol newton_max_iter fuel st
      else Run.returned st

/-- The state in which `solve_newton` enters its loop: `it = 1`, `res_l2_norm` not
yet assigned (any value; it is written before it is read), `sln_iter` empty. -/
def newton_start (sys : NonlinSystem) (u_prev : Solution) : NewtonState :=
  { it := 1, res_l2_norm := 0, sln_iter := { space := 0, coef := fun _ => 0 }, sys := sys,
    u_prev := u_prev, assembled := [], solved := 0 }

/-- `NonlinSystem::solve_newton(u_prev, newton_tol, newton_max_iter)` for one
equation, lines 207-241: the value returned and the final state (which holds the
system and `*u_prev`). -/
def NonlinSystem.solve_newton (c : NonlinCalls) (fuel : Nat) (sys : NonlinSystem)
    (u_prev : Solution) (newton_tol : ℚ) (newton_max_iter : Int) : Run (Bool × NewtonState) :=
  match newton_loop c newton_tol newton_max_iter fuel (newton_start sys u_prev) with
  | Run.returned st =>
    -- returning "true" if converged, otherwise returning "false"
    if st.it ≤ newton_max_iter then Run.returned (true, st) else Run.returned (false, st)
  | Run.fatal e => Run.fatal e
  | Run.out_of_fuel => Run.out_of_fuel

/-- The state after `k` passes of the body of the loop of `solve_newton`, whatever
the loop condition says. -/
def newton_iterate (c : NonlinCalls) : Nat → NewtonState → Except Fatal NewtonState
  | 0, st => Except.ok st
  | k + 1, st =>
    match newton_iterate c k st with
    | Except.ok s => newton_iteration c s
    | Except.error e => Except.error e

/-- The l2 norm of the residual of the iterate held in the state `s`: the value
`assemble()` gives `res_l2` when called in `s`. -/
def residual_norm (c : NonlinCalls) (s : NewtonState) : ℚ :=
  c.sqrt (accumulate_norms (c.lin_assemble s.sys.toLinSystem s.u_prev).2 s.sys.ndof.toNat).l2

/-- A system set up so that `solve` passes its tests in every Newton iteration:
one equation, a solver, an allocated `Vec`, and a `LinSystem::assemble` that
leaves a matrix of the size `get_num_dofs()`. -/
def newton_ready (c : NonlinCalls) (sys : NonlinSystem) : Prop :=
  sys.neq = 1 ∧ sys.solver ≠ none ∧ sys.Vec ≠ none ∧
    ∀ (l : LinSystem) (u : Solution), (c.lin_assemble l u).1.size = l.ndof

/-! ### Sample systems -/

/-- The identity matrix of size `n`. -/
def identity_matrix (n : Int) : CooMatrix :=
  { size := n, entry := fun i j => if i = j then 1 else 0 }

/-- Sample calls: the Jacobian is the identity, the residual of an iterate `Y` is
`Y - 3` in every component, the linear solver returns the right-hand side (the
solution for the identity), and `sqrt` is exact on the squares of rationals. -/
def newton_sample_calls : NonlinCalls :=
  { lin_assemble := fun l u => (identity_matrix l.ndof, fun i => u.coef i - 3),
    umfpack := fun _ b => b,
    sqrt := fun x => (Nat.sqrt x.num.toNat : ℚ) / (Nat.sqrt x.den : ℚ) }

/-- A sample system of one equation and two degrees of freedom whose vector `Vec`
holds `v` in every component. -/
def newton_sample_system (v : ℚ) : NonlinSystem :=
  NonlinSystem.init_nonlin
    { neq := 1, solver := some 0, ndof := 2, A := identity_matrix 2, RHS := fun _ => 0,
      Vec := some fun _ => v, want_dir_contrib := true }

/-- The solution with the coefficient `v` in every component. -/
def constant_solution (v : ℚ) : Solution := { space := 0, coef := fun _ => v }

/-- Sample calls whose residual never gets small: the residual is 1 in every
component whatever the iterate; the Jacobian and the linear solver are those of
`newton_sample_calls`. -/
def newton_calls_no_progress : NonlinCalls :=
  { lin_assemble := fun l _ => (identity_matrix l.ndof, fun _ => 1),
    umfpack := fun _ b => b,
    sqrt := newton_sample_calls.sqrt }

/-- The sample system as `assemble()` leaves it on the iterate 5: two degrees of
freedom, `Vec = 5`, the Jacobian the identity and `RHS = -(5 - 3) = -2` in every
component. -/
def solve_sample_system : NonlinSystem :=
  NonlinSystem.init_nonlin
    { neq := 1, solver := some 0, ndof := 2, A := identity_matrix 2, RHS := fun _ => -2,
      Vec := some fun _ => 5, want_dir_contrib := true }
/-! ### The constructors of `NonlinSystem` -/

/-- The constants of `tutorial/15-newton-elliptic-adapt/main.cpp` that steer the
driver: `ERR_STOP`, `NDOF_STOP` and `NEWTON_ON_COARSE_MESH`. -/
structure NewtonAdaptConfig extends StopConfig where
  NEWTON_ON_COARSE_MESH : Bool

/-- The library calls of `tutorial/15-newton-elliptic-adapt/main.cpp` from line 173
on; `σ` is the state of the program (mesh, space, the systems, `u_prev`,
`sln_coarse`, `sln_fine`).
* `solve_newton_coarse` is `nls.solve_newton(&u_prev, NEWTON_TOL_COARSE, NEWTON_MAX_ITER)`,
  `solve_newton_fine` is `rnls.solve_newton(&u_prev, NEWTON_TOL_FINE, NEWTON_MAX_ITER)`;
* `store_coarse` and `store_fine` are `sln_coarse.copy(&u_prev)` and `sln_fine.copy(&u_prev)`;
* `prepare_fine` is `RefSystem rnls(&nls); rnls.prepare()`;
* `project_coarse_on_fine`, `project_fine_on_fine` and `project_fine_on_coarse` are the
  three calls of `project_global`;
* `calc_error` is `hp.set_solutions` and `hp.calc_error()`;
* `adapt` is `hp.adapt(&selector, THRESHOLD, STRATEGY, MESH_REGULARITY)`;
* `assign_dofs` is `assign_dofs(&space)`. -/
structure NewtonAdaptCalls (σ : Type) where
  solve_newton_coarse : σ → σ × Bool
  solve_newton_fine : σ → σ × Bool
  store_coarse : σ → σ
  store_fine : σ → σ
  prepare_fine : σ → σ
  project_coarse_on_fine : σ → σ
  project_fine_on_fine : σ → σ
  project_fine_on_coarse : σ → σ
  calc_error : σ → ℚ
  adapt : σ → σ × Bool
  assign_dofs : σ → σ × Int

/-- What the driver does, in the order it does it: the start of adaptivity step
`as`, a Newton solve on the coarse or on the fine mesh with the value
`solve_newton` returned, an error estimate, a mesh adaptation. -/
inductive DriverEvent where
  | step (as : Nat)
  | newton_coarse (converged : Bool)
  | newton_fine (converged : Bool)
  | error_estimate
  | adaptation
deriving DecidableEq

/-- A Newton solve for which `solve_newton` returned `false`. -/
def DriverEvent.failed_newton : DriverEvent → Bool
  | DriverEvent.newton_coarse false => true
  | DriverEvent.newton_fine false => true
  | _ => false

/-- One pass of the body of the adaptivity loop, lines 188-277, in step `as`: the
events of the pass, and either the fatal error that ended the program or the
state and the value of `done` with which the pass was left (by reaching its end
or through `break`). -/
def newton_adapt_step {σ : Type} (c : NewtonAdaptCalls σ) (k : NewtonAdaptConfig) (as : Nat)
    (s : σ) : List DriverEvent × Except Fatal (σ × Bool) :=
  -- Initialize fine mesh problem and the initial condition for Newton's method.
  let s := c.prepare_fine s
  let s := if as = 1 then c.project_coarse_on_fine s else c.project_fine_on_fine s
  -- Newton's loop on the fine mesh.
  let r := c.solve_newton_fine s
  if r.2 = false then
    ([DriverEvent.step as, DriverEvent.newton_fine false], error Fatal.newton_not_converged)
  else
    let s := c.store_fine r.1
    let err_est := c.calc_error s * 100
    if err_est < k.ERR_STOP then
      ([DriverEvent.step as, DriverEvent.newton_fine true, DriverEvent.error_estimate],
        Except.ok (s, true))
    else
      let a := c.adapt s
      let done := a.2
      let d := c.assign_dofs a.1
      let ndof := d.2
      if ndof ≥ k.NDOF_STOP then
        ([DriverEvent.step as, DriverEvent.newton_fine true, DriverEvent.error_estimate,
            DriverEvent.adaptation],
          Except.ok (d.1, true))
      else
        let s := c.project_fine_on_coarse d.1
        if k.NEWTON_ON_COARSE_MESH then
          let r := c.solve_newton_coarse s
          if r.2 = false then
            ([DriverEvent.step as, DriverEvent.newton_fine true, DriverEvent.error_estimate,
                DriverEvent.adaptation, DriverEvent.newton_coarse false],
              error Fatal.newton_not_converged)
          else
            ([DriverEvent.step as, DriverEvent.newton_fine true, DriverEvent.error_estimate,
                DriverEvent.adaptation, DriverEvent.newton_coarse true],
              Except.ok (c.store_coarse r.1, done))
        else
          ([DriverEvent.step as, DriverEvent.newton_fine true, DriverEvent.error_estimate,
              DriverEvent.adaptation],
            Except.ok (c.store_coarse s, done))

/-- The adaptivity loop `do { ... as++; } while (!done)`, lines 185-279, cut off
after `fuel` passes: the events and how the loop ended. -/
def newton_adapt_loop {σ : Type} (c : NewtonAdaptCalls σ) (k : NewtonAdaptConfig) :
    Nat → Nat → σ → List DriverEvent × Run σ
  | 0, _, _ => ([], Run.out_of_fuel)
  | fuel + 1, as, s =>
    match newton_adapt_step c k as s with
    | (events, Except.error e) => (events, Run.fatal e)
    | (events, Except.ok (s, done)) =>
      if done then (events, Run.returned s)
      else
        ((events ++ (newton_adapt_loop c k fuel (as + 1) s).1),
          (newton_adapt_loop c k fuel (as + 1) s).2)

/-- The driver from line 173 on: Newton's loop on the coarse mesh, then the
adaptivity loop. -/
def newton_adapt_main {σ : Type} (c : NewtonAdaptCalls σ) (k : NewtonAdaptConfig) (fuel : Nat)
    (s : σ) : List DriverEvent × Run σ :=
  let r := c.solve_newton_coarse s
  if r.2 = false then ([DriverEvent.newton_coarse false], Run.fatal Fatal.newton_not_converged)
  else
    let s := c.store_coarse r.1
    ((DriverEvent.newton_coarse true :: (newton_adapt_loop c k fuel 1 s).1),
      (newton_adapt_loop c k fuel 1 s).2)

/-- No event of the list is a failed Newton solve. -/
def no_failed_newton (events : List DriverEvent) : Prop :=
  ∀ e ∈ events, e.failed_newton = false

/-- A failed Newton solve is the last event and the run ended in the fatal error
"Newton's method did not converge". -/
def stops_at_failed_newton {σ : Type} (events : List DriverEvent) (result : Run σ) : Prop :=
  ∀ pre e post, events = pre ++ e :: post → e.failed_newton = true →
    post = [] ∧ result = Run.fatal Fatal.newton_not_converged

/-- A sample run: the state counts the Newton solves made on the fine mesh;
Newton's method converges on the coarse mesh and in the first fine mesh solve and
fails in the second; the error estimate stays at 10 per cent and the space has 100
degrees of freedom. -/
def newton_adapt_sample : NewtonAdaptCalls Nat :=
  { solve_newton_coarse := fun s => (s, true),
    solve_newton_fine := fun s => (s + 1, decide (s < 1)),
    store_coarse := fun s => s,
    store_fine := fun s => s,
    prepare_fine := fun s => s,
    project_coarse_on_fine := fun s => s,
    project_fine_on_fine := fun s => s,
    project_fine_on_coarse := fun s => s,
    calc_error := fun _ => 10 / 100,
    adapt := fun s => (s, false),
    assign_dofs := fun s => (s, 100) }

/-- The constants of `tutorial/15-newton-elliptic-adapt/main.cpp`. -/
def newton_adapt_config : NewtonAdaptConfig :=
  { ERR_STOP := 1, NDOF_STOP := 60000, NEWTON_ON_COARSE_MESH := false }

/-! ## The enumeration of the degrees of freedom

`Space::assign_dofs` is not among the sources (`space_l2.h` only declares the
three passes `assign_vertex_dofs`, `assign_edge_dofs`, `assign_bubble_dofs`, and
the drivers call `assign_dofs(first_dof)`).  The definitions of this section
follow the specification (sections 3, 4.2 and 9): a counter is threaded through
the enumeration, which walks the active elements three times. -/

/-- The mesh entity that owns a block of basis functions: a vertex node, an edge
node or the interior of an element. -/
inductive DofOwner where
  | vertex (node : Nat)
  | edge (node : Nat)
  | bubble (element : Nat)
deriving DecidableEq

/-- Modelled from the spec: the kind of a space (section 9: "keyed by
{vertex-function use, edge-function continuity, bubble-function rule}"): whether
it has vertex functions, how many functions an edge of a given order carries
(`edge_order - 1` in the enumeration of section 4.2; none for an `L2Space`), and
how many bubble functions an element of a given order carries. -/
structure SpaceKind where
  vertex_functions : Bool
  edge_functions : Nat → Nat
  bubble_functions : Order → Nat

/-- A block of consecutive indices given to one owner. -/
structure DofBlock where
  owner : DofOwner
  first : Nat
  count : Nat
deriving DecidableEq

/-- Modelled from the spec: a `Space` with what the enumeration uses (the missing
`space.h`): the mesh and the orders, the kind of the space, the vertex and edge
nodes each element refers to, the order of every edge, and the table of the
enumerated indices (stale until `assign_dofs` is called again). -/
structure DofSpace where
  space : Space
  kind : SpaceKind
  vertices : Nat → List Nat
  edges : Nat → List Nat
  edge_order : Nat → Nat
  table : List DofBlock

/-- The number of basis functions an owner carries. -/
def DofSpace.num_functions (S : DofSpace) : DofOwner → Nat
  | DofOwner.vertex _ => if S.kind.vertex_functions then 1 else 0
  | DofOwner.edge g => S.kind.edge_functions (S.edge_order g)
  | DofOwner.bubble e => S.kind.bubble_functions (S.space.order e)

/-- The owners in the order the enumeration meets them: the vertices of the active
elements, then their edges, then their interiors. -/
def DofSpace.walk (S : DofSpace) : List DofOwner :=
  ((S.space.mesh.elements.filter fun e => e.active).flatMap fun e =>
      (S.vertices e.id).map DofOwner.vertex) ++
    ((S.space.mesh.elements.filter fun e => e.active).flatMap fun e =>
      (S.edges e.id).map DofOwner.edge) ++
    (S.space.mesh.elements.filter fun e => e.active).map fun e => DofOwner.bubble e.id

/-- The enumeration pass: an owner met for the first time takes the next
`size owner` indices; `next` is the counter threaded through the pass. -/
def enumerate (size : DofOwner → Nat) : List DofOwner → List DofBlock → Nat → List DofBlock × Nat
  | [], table, next => (table, next)
  | o :: rest, table, next =>
    if table.any (fun b => decide (b.owner = o)) then enumerate size rest table next
    else enumerate size rest (table ++ [{ owner := o, first := next, count := size o }])
      (next + size o)

/-- Modelled from the spec: `Space::assign_dofs(first_dof)` (missing `space.cpp`):
"walks active elements, first enumerating one DOF per unique vertex basis
function ..., then one set per unique mesh edge ..., then a fixed count of
interior bubble DOFs per element ... Returns total DOF count", "renumbering from
scratch".  The numbering starts at `first_dof`, as in
`ydisp.assign_dofs(ndofs)` of `tutorial/07-system/main.cpp`. -/
def DofSpace.assign_dofs (S : DofSpace) (first_dof : Nat) : DofSpace × Nat :=
  let r := enumerate S.num_functions S.walk [] first_dof
  ({ S with table := r.1 }, r.2 - first_dof)

/-- The index of the `k`-th basis function of an owner, if it has one. -/
def DofSpace.dof (S : DofSpace) (o : DofOwner) (k : Nat) : Option Nat :=
  match S.table.find? (fun b => decide (b.owner = o)) with
  | some b => if k < b.count then some (b.first + k) else none
  | none => none

/-- The blocks of the table follow one another from `first` to `next`. -/
def contiguous : Nat → List DofBlock → Nat → Prop
  | first, [], next => next = first
  | first, b :: rest, next => b.first = first ∧ contiguous (first + b.count) rest next

/-- A sample kind after the enumeration of section 4.2: one function per vertex,
`edge_order - 1` functions per edge; the bubble functions of an element of order
`p` are taken to be `(p - 1)^2` (`(px - 1)(py - 1)` for an anisotropic order). -/
def sample_kind : SpaceKind :=
  { vertex_functions := true,
    edge_functions := fun p => p - 1,
    bubble_functions := fun o =>
      match o with
      | Order.iso p => (p - 1) * (p - 1)
      | Order.aniso px py => (px - 1) * (py - 1) }

/-- A sample space: the mesh of one quad and one triangle that share an edge
(vertex nodes 0-4, edge nodes 10-15), all of order 2. -/
def dof_space_sample : DofSpace :=
  { space := { mesh := mesh_two, order := fun _ => Order.iso 2 },
    kind := sample_kind,
    vertices := fun e => if e = 0 then [0, 1, 2, 3] else [1, 4, 2],
    edges := fun e => if e = 0 then [10, 11, 12, 13] else [14, 15, 11],
    edge_order := fun _ => 2,
    table := [] }


/-! ## The Dirichlet lift of `tutorial/15-newton-elliptic-adapt`

The functions of the drivers that return a value and write the two derivatives
through reference parameters are embedded as functions into a record of the
three outputs.  They are generic in the field of numbers, so that they can be
evaluated over `ℚ` and differentiated over `ℝ`. -/

/-- The outputs of a function `double f(double x, double y, double& dx, double& dy)`:
the returned value and the two reference parameters. -/
structure ValueGrad (K : Type) where
  /-- The returned value. -/
  val : K
  /-- The value written to `dx`. -/
  dx : K
  /-- The value written to `dy`. -/
  dy : K

/-- Function `dir_lift` of `tutorial/15-newton-elliptic-adapt/main.cpp`:
`dx = (y+10)/10.; dy = (x+10)/10.; return (x+10)*(y+10)/100.;`. -/
def dir_lift {K : Type} [Field K] (x y : K) : ValueGrad K :=
  { dx := (y + 10) / 10,
    dy := (x + 10) / 10,
    val := (x + 10) * (y + 10) / 100 }

/-- Function `init_guess` of the same driver: the Dirichlet lift elevated by two,
with the derivatives written by `dir_lift`. -/
def init_guess {K : Type} [Field K] (x y : K) : ValueGrad K :=
  { dir_lift x y with val := (dir_lift x y).val + 2 }

/-! ## The exact solution of `benchmarks/kellogg`

The calls into the C mathematical library (`cos`, `atan2`, `sqrt`, `pow`) and the
constant `M_PI` are parameters of the embedding; the theorems instantiate them
with the real cosine and the real number `π`.  The four expressions assigned to
`mu` in the branches of `fn` are named after the quadrants. -/

/-- Constant `TAU = 0.1`. -/
def Kellogg.TAU {K : Type} [Field K] : K := 0.1

/-- Constant `RHO = M_PI/4.`. -/
def Kellogg.RHO {K : Type} [Field K] (M_PI : K) : K := M_PI / 4

/-- Constant `SIGMA = -14.92256510455152`. -/
def Kellogg.SIGMA {K : Type} [Field K] : K := -14.92256510455152

/-- Constant `R = 161.4476387975881`. -/
def Kellogg.R {K : Type} [Field K] : K := 161.4476387975881

/-- The value of `mu` in the branch `theta <= M_PI/2.` of `fn`. -/
def Kellogg.mu_I {K : Type} [Field K] (cos : K → K) (M_PI : K) (theta : K) : K :=
  cos ((M_PI / 2 - Kellogg.SIGMA) * Kellogg.TAU) *
    cos ((theta - M_PI / 2 + Kellogg.RHO M_PI) * Kellogg.TAU)

/-- The value of `mu` in the branch `theta <= M_PI` of `fn`. -/
def Kellogg.mu_II {K : Type} [Field K] (cos : K → K) (M_PI : K) (theta : K) : K :=
  cos (Kellogg.RHO M_PI * Kellogg.TAU) * cos ((theta - M_PI + Kellogg.SIGMA) * Kellogg.TAU)

/-- The value of `mu` in the branch `theta <= 3*M_PI/2.` of `fn`. -/
def Kellogg.mu_III {K : Type} [Field K] (cos : K → K) (M_PI : K) (theta : K) : K :=
  cos (Kellogg.SIGMA * Kellogg.TAU) * cos ((theta - M_PI + Kellogg.RHO M_PI) * Kellogg.TAU)

/-- The value of `mu` in the last branch of `fn`. -/
def Kellogg.mu_IV {K : Type} [Field K] (cos : K → K) (M_PI : K) (theta : K) : K :=
  cos ((M_PI / 2 - Kellogg.RHO M_PI) * Kellogg.TAU) *
    cos ((theta - 3 * M_PI / 2 - Kellogg.SIGMA) * Kellogg.TAU)

/-- The angular factor of `fn`: the nested `if (theta <= ...)` that assigns `mu`. -/
def Kellogg.mu {K : Type} [LinearOrderedField K] (cos : K → K) (M_PI : K) (theta : K) : K :=
  if theta ≤ M_PI / 2 then Kellogg.mu_I cos M_PI theta
  else if theta ≤ M_PI then Kellogg.mu_II cos M_PI theta
  else if theta ≤ 3 * M_PI / 2 then Kellogg.mu_III cos M_PI theta
  else Kellogg.mu_IV cos M_PI theta

/-- Function `fn` of `benchmarks/kellogg/main.cpp`: `theta = atan2(y,x)`, moved into
`[0, 2π)` when negative, `r = sqrt(x*x + y*y)`, and the result `pow(r, TAU) * mu`. -/
def Kellogg.fn {K : Type} [LinearOrderedField K] (atan2 : K → K → K) (sqrt : K → K)
    (pow : K → K → K) (cos : K → K) (M_PI : K) (x y : K) : K :=
  let theta := atan2 y x
  let theta := if theta < 0 then theta + 2 * M_PI else theta
  let r := sqrt (x * x + y * y)
  pow r Kellogg.TAU * Kellogg.mu cos M_PI theta

/-! ## The initial mesh of `benchmarks/kellogg` -/

/-- Constant `INIT_REF_NUM = 1` of `benchmarks/kellogg/main.cpp`, commented
"number of initial mesh refinements (the original mesh is just one element)". -/
def Kellogg.INIT_REF_NUM : Int := 1

/-- The statements of `main` of `benchmarks/kellogg` between `mesh.load` and the
adaptivity loop that change the mesh:
`for (int i=0; i < INIT_REF_NUM; i++) mesh.refine_all_elements();` followed by
`mesh.refine_all_elements();`.  The mesh type and `refine_all_elements` are
parameters. -/
def Kellogg.initial_mesh {M : Type} (refine_all_elements : M → M) (INIT_REF_NUM : Int)
    (mesh : M) : M :=
  let mesh := (List.range INIT_REF_NUM.toNat).foldl (fun mesh _ => refine_all_elements mesh) mesh
  refine_all_elements mesh

/-! ## The generator `gen_hc_gradleg`: bubble indices and bubble counts

`main` of `src/gen/gen_hc_gradleg.cpp` prints C tables.  The embedding keeps the
local arrays `indices1`, `indices2` and the running index `k`, and returns what
is printed as lists. -/

/-- A local array `int a[15][15]`; `none` is an entry that was never written. -/
abbrev IntTable := List (List (Option Int))

/-- The array as declared, before any assignment. -/
def IntTable.declared : IntTable := List.replicate 15 (List.replicate 15 none)

/-- Assignment `a[i][j] = v`. -/
def IntTable.write (a : IntTable) (i j : Nat) (v : Int) : IntTable :=
  a.set i ((a.getD i []).set j (some v))

/-- Read of `a[i][j]`; `none` when the entry was never written. -/
def IntTable.read (a : IntTable) (i j : Nat) : Option Int :=
  (a.getD i []).getD j none

/-- The variables `indices1`, `indices2` and `k` of `main`. -/
structure GenState where
  /-- Array `indices1`. -/
  indices1 : IntTable
  /-- Array `indices2`. -/
  indices2 : IntTable
  /-- The running index of the shape function printed next. -/
  k : Int

/-- Lines 563-571: `k = 88`, the declarations, and the loop that zeroes the entries
`[0..11][0..11]` of both arrays. -/
def GenState.init : GenState :=
  (List.range 12).foldl (fun s i => (List.range 12).foldl (fun s j =>
    { s with indices1 := s.indices1.write i j 0, indices2 := s.indices2.write i j 0 }) s)
    { indices1 := IntTable.declared, indices2 := IntTable.declared, k := 88 }

/-- Lines 573-579: for `i = 0..10`, `j = 2..11`: `indices1[i][j-1] = k; k++`. -/
def GenState.fill_b1 (s : GenState) : GenState :=
  (List.range 11).foldl (fun s i => (List.range' 2 10).foldl (fun s j =>
    { s with indices1 := s.indices1.write i (j - 1) s.k, k := s.k + 1 }) s) s

/-- Lines 580-586: for `i = 2..11`, `j = 0..10`: `indices2[i-1][j] = k; k++`. -/
def GenState.fill_b2 (s : GenState) : GenState :=
  (List.range' 2 10).foldl (fun s i => (List.range 11).foldl (fun s j =>
    { s with indices2 := s.indices2.write (i - 1) j s.k, k := s.k + 1 }) s) s

/-- The state of `main` when the lists `qb_i_j` are printed. -/
def GenState.filled : GenState := GenState.init.fill_b1.fill_b2

/-- Lines 724-731: the numbers printed between the braces of `qb_i_j`: for
`k = 0..i`, `l = 0..j`, the entry `indices1[k][l]` when it is not zero, then the
entry `indices2[k][l]` when it is not zero.  The result is `none` when an entry is
read that was never written. -/
def qb (s : GenState) (i j : Nat) : Option (List Int) :=
  (List.range (i + 1)).foldlM (fun out k => (List.range (j + 1)).foldlM (fun out l => do
    let a ← s.indices1.read k l
    let b ← s.indices2.read k l
    pure (out ++ (if a ≠ 0 then [a] else []) ++ (if b ≠ 0 then [b] else []))) out) []

/-- The sixteen entries of the printed `NULL16`. -/
def NULL16 : List (Option (Nat × Nat)) := List.replicate 16 none

/-- The sixteen entries of the printed `zero16`. -/
def zero16 : List Int := List.replicate 16 0

/-- Lines 740-756: the entries of the printed table `gradleg_quad_bubble_indices`;
`some (i, j)` is the name `qb_i_j` and `none` is `NULL`. -/
def gradleg_quad_bubble_indices : List (Option (Nat × Nat)) :=
  (List.range 1).foldl (fun out i =>
      out ++ [none] ++ (List.range' 1 10).map (fun j => some (i, j))
        ++ List.replicate 5 none ++ NULL16) []
    ++ (List.range' 1 10).foldl (fun out i =>
      out ++ (List.range 11).map (fun j => some (i, j)) ++ List.replicate 5 none ++ NULL16) []

/-- Lines 759-779: the entries of the printed table `gradleg_quad_bubble_count`. -/
def gradleg_quad_bubble_count : List Int :=
  (List.range 1).foldl (fun out _ =>
      out ++ [0] ++ (List.range' 1 10).map (fun j => (j : Int))
        ++ List.replicate 5 0 ++ zero16) []
    ++ (List.range' 1 10).foldl (fun out i =>
      out ++ (List.range 11).map (fun j => (((j + 1) * i + (i + 1) * j : Nat) : Int))
        ++ List.replicate 5 0 ++ zero16) []
/-! # Part 2: lemmas and theorems -/

/-! ## The adaptivity loops -/

section Loops

variable {σ ρ : Type}

lemma do_while_counter_lt (body : σ → σ × Bool) (fuel a : Nat) (s : σ) (r : Nat × σ)
    (h : do_while body fuel a s = some r) : a < r.1 := by
  induction fuel generalizing a s with
  | zero => simp [do_while] at h
  | succ f ih =>
    unfold do_while at h
    by_cases hd : (body s).2 = true
    · simp only [hd, if_true, Option.some.injEq] at h
      subst h; simp
    · have hd' : (body s).2 = false := by simpa using hd
      simp only [hd', Bool.false_eq_true, if_false] at h
      have := ih _ _ h
      omega

/-- A `do ... while` loop ends after pass `n + 1` exactly when the body sets `done`
in pass `n + 1` and in no earlier pass: `P` is the condition under which the body
sets `done`, `next` the state the body leaves when it does not. -/
lemma do_while_eq_some_iff (body : σ → σ × Bool) (next : σ → σ) (P : σ → Prop)
    (hP : ∀ s, (body s).2 = true ↔ P s) (hnext : ∀ s, (body s).2 = false → (body s).1 = next s)
    (fuel a : Nat) (s : σ) (n : Nat) :
    (∃ s', do_while body fuel a s = some (a + n + 1, s')) ↔
      n < fuel ∧ P (next^[n] s) ∧ ∀ i < n, ¬ P (next^[i] s) := by
  induction fuel generalizing a s n with
  | zero => simp [do_while]
  | succ fuel ih =>
    unfold do_while
    by_cases hd : (body s).2 = true
    · have hs : P s := (hP s).1 hd
      simp only [hd, if_true]
      constructor
      · rintro ⟨s', h⟩
        have h1 : a + 1 = a + n + 1 := by
          have := congrArg (fun o => o.map Prod.fst) h
          simpa using this
        have hn : n = 0 := by omega
        subst hn
        exact ⟨Nat.succ_pos _, by simpa using hs, by simp⟩
      · rintro ⟨_, _, hall⟩
        have hn : n = 0 := by
          by_contra hne
          exact hall 0 (Nat.pos_of_ne_zero hne) (by simpa using hs)
        subst hn
        exact ⟨_, rfl⟩
    · have hd' : (body s).2 = false := by simpa using hd
      have hs : ¬ P s := fun h => hd ((hP s).2 h)
      have hc := hnext s hd'
      simp only [hd', Bool.false_eq_true, if_false, hc]
      cases n with
      | zero =>
        constructor
        · rintro ⟨s', h⟩
          have := do_while_counter_lt body _ _ _ _ h
          simp at this
        · rintro ⟨_, h0, _⟩
          exact absurd (by simpa using h0) hs
      | succ m =>
        have e1 : a + (m + 1) + 1 = (a + 1) + m + 1 := by omega
        rw [e1, ih (a + 1) (next s) m]
        constructor
        · rintro ⟨hlt, hst, hall⟩
          refine ⟨by omega, by simpa [Function.iterate_succ_apply] using hst, ?_⟩
          intro i hi
          cases i with
          | zero => simpa using hs
          | succ j => simpa [Function.iterate_succ_apply] using hall j (by omega)
        · rintro ⟨hlt, hst, hall⟩
          refine ⟨by omega, by simpa [Function.iterate_succ_apply] using hst, ?_⟩
          intro i hi
          simpa [Function.iterate_succ_apply] using hall (i + 1) (by omega)

lemma adapt_step_done_iff (c : AdaptCalls σ ρ) (k : StopConfig) (s : σ) :
    (adapt_step c k s).done = true ↔ stops c k s := by
  unfold adapt_step stops err_est adapted_state
  by_cases h : c.calc_error s (c.build_reference s) * 100 < k.ERR_STOP
  · simp [h]
  · by_cases h2 : c.get_num_dofs (c.adapt s (c.build_reference s)).1 ≥ k.NDOF_STOP
    · simp [h, h2]
    · have h3 : ¬ k.NDOF_STOP ≤ c.get_num_dofs (c.adapt s (c.build_reference s)).1 := h2
      simp [h, h3]

lemma adapt_step_coarse_of_not_done (c : AdaptCalls σ ρ) (k : StopConfig) (s : σ)
    (h : (adapt_step c k s).done = false) : (adapt_step c k s).coarse = adapted_state c s := by
  unfold adapt_step adapted_state at *
  by_cases h1 : c.calc_error s (c.build_reference s) * 100 < k.ERR_STOP
  · simp [h1] at h
  · simp [h1]

lemma adapt_loop_eq_some_iff (c : AdaptCalls σ ρ) (k : StopConfig) (fuel as : Nat) (s : σ)
    (n : Nat) :
    (∃ s', adapt_loop c k fuel as s = some (as + n + 1, s')) ↔
      n < fuel ∧ stops c k (coarse_at c s n) ∧ ∀ i < n, ¬ stops c k (coarse_at c s i) :=
  do_while_eq_some_iff _ (adapted_state c) (stops c k) (adapt_step_done_iff c k)
    (adapt_step_coarse_of_not_done c k) fuel as s n

/-- With a zero tolerance and non-negative error estimates a pass of the layer
driver sets `done` exactly when `ndofs >= NDOF_STOP`. -/
lemma layer_step_done_iff (c : LayerCalls σ) (k : StopConfig) (h0 : k.ERR_STOP = 0)
    (hnn : ∀ s, 0 ≤ c.calc_error s) (s : σ) :
    (layer_step c k s).2 = true ↔ k.NDOF_STOP ≤ layer_ndofs c s := by
  have h : ¬ c.calc_error s * 100 < k.ERR_STOP := by
    rw [h0]; have := hnn s; intro hlt; linarith
  unfold layer_step layer_ndofs
  simp [h]

lemma layer_step_next (c : LayerCalls σ) (k : StopConfig) (h0 : k.ERR_STOP = 0)
    (hnn : ∀ s, 0 ≤ c.calc_error s) (s : σ) (_h : (layer_step c k s).2 = false) :
    (layer_step c k s).1 = layer_next c s := by
  have h : ¬ c.calc_error s * 100 < k.ERR_STOP := by
    rw [h0]; have := hnn s; intro hlt; linarith
  unfold layer_step layer_next
  simp [h]

/-! ### C1: when the tutorial loop ends -/

/-- C1, as the code has it: a pass of the loop of `tutorial/10-adapt` sets `done`
if and only if `err_est < ERR_STOP`, or `hp.adapt` returned `true`, or the coarse
space has at least `NDOF_STOP` degrees of freedom after the adaptation; and the
loop, given `fuel` passes, ends after pass `n + 1` (with `as = n + 2`) if and only
if `n < fuel`, that condition holds in pass `n + 1` and it holds in no earlier pass. -/
theorem adapt_loop_ends_iff (c : AdaptCalls σ ρ) (k : StopConfig) :
    (∀ s, (adapt_step c k s).done = true ↔
        (err_est c s < k.ERR_STOP ∨ (c.adapt s (c.build_reference s)).2 = true ∨
          k.NDOF_STOP ≤ c.get_num_dofs (adapted_state c s))) ∧
    (∀ fuel n s, (∃ s', adapt_loop c k fuel 1 s = some (n + 2, s')) ↔
        (n < fuel ∧ stops c k (coarse_at c s n) ∧ ∀ i < n, ¬ stops c k (coarse_at c s i))) := by
  refine ⟨fun s => adapt_step_done_iff c k s, ?_⟩
  intro fuel n s
  have h := adapt_loop_eq_some_iff c k fuel 1 s n
  have e : 1 + n + 1 = n + 2 := by omega
  rw [e] at h
  exact h

/-- C1 as stated fails: with `hp.adapt` returning `true` the loop ends after its
first pass although `err_est` is 5 (not below `ERR_STOP = 1`) and the coarse space
has 100 degrees of freedom (fewer than `NDOF_STOP = 60000`). -/
theorem adapt_loop_ends_on_adapt_result :
    adapt_loop calls_nothing_refined tutorial_config 1 1 100 = some (2, 100) ∧
      ¬ (err_est calls_nothing_refined 100 < tutorial_config.ERR_STOP ∨
          tutorial_config.NDOF_STOP ≤
            calls_nothing_refined.get_num_dofs (adapted_state calls_nothing_refined 100)) := by
  refine ⟨?_, ?_⟩
  · simp [adapt_loop, do_while, adapt_step, calls_nothing_refined, tutorial_config]
  · simp [err_est, adapted_state, calls_nothing_refined, tutorial_config]

/-! ### C2: when the coarse mesh is adapted -/

/-- C2, as the code has it: a pass calls `hp.adapt` if and only if `err_est` is
not below `ERR_STOP` (`ERR_STOP ≤ err_est`), and then the coarse state it leaves is
the one `hp.adapt` produced; a pass with `err_est < ERR_STOP` leaves the coarse
mesh and space as they were. -/
theorem adapt_called_iff (c : AdaptCalls σ ρ) (k : StopConfig) (s : σ) :
    ((adapt_step c k s).adapted = true ↔ k.ERR_STOP ≤ err_est c s) ∧
    (k.ERR_STOP ≤ err_est c s → (adapt_step c k s).coarse = adapted_state c s) ∧
    (err_est c s < k.ERR_STOP → (adapt_step c k s).coarse = s) ∧
    (adapt_step c k s).err_est = err_est c s := by
  unfold adapt_step err_est adapted_state
  by_cases h : c.calc_error s (c.build_reference s) * 100 < k.ERR_STOP
  · have h' : ¬ k.ERR_STOP ≤ c.calc_error s (c.build_reference s) * 100 := not_le.mpr h
    simp [h, h']
  · have h' : k.ERR_STOP ≤ c.calc_error s (c.build_reference s) * 100 := not_lt.mp h
    simp [h, h']

/-- C2 as stated fails: with `err_est` equal to `ERR_STOP` (1 per cent) the error
does not exceed the tolerance, yet the pass calls `hp.adapt` and the coarse space
goes from 100 to 150 degrees of freedom. -/
theorem adapt_called_on_tolerance :
    ¬ (tutorial_config.ERR_STOP < err_est calls_on_tolerance 100) ∧
      (adapt_step calls_on_tolerance tutorial_config 100).adapted = true ∧
      (adapt_step calls_on_tolerance tutorial_config 100).coarse = 150 := by
  simp [adapt_step, err_est, calls_on_tolerance, tutorial_config]

/-! ### C3: the layer loop with a zero tolerance -/

/-- C3, as the code has it: in the loop of `examples/layer` run with
`ERR_STOP = 0` and non-negative error estimates, the loop, given `fuel` passes,
ends after pass `n + 1` if and only if `n < fuel`, the count `ndofs` returned by
`assign_dofs()` in pass `n + 1` is at least `NDOF_STOP`, and in every earlier pass
it was below `NDOF_STOP`. -/
theorem layer_loop_ends_iff (c : LayerCalls σ) (k : StopConfig) (h0 : k.ERR_STOP = 0)
    (hnn : ∀ s, 0 ≤ c.calc_error s) (fuel n : Nat) (s : σ) :
    (∃ s', layer_loop c k fuel 1 s = some (n + 2, s')) ↔
      (n < fuel ∧ k.NDOF_STOP ≤ layer_ndofs c (layer_at c s n) ∧
        ∀ i < n, layer_ndofs c (layer_at c s i) < k.NDOF_STOP) := by
  have h := do_while_eq_some_iff (layer_step c k) (layer_next c)
    (fun s => k.NDOF_STOP ≤ layer_ndofs c s) (layer_step_done_iff c k h0 hnn)
    (layer_step_next c k h0 hnn) fuel 1 s n
  have e : 1 + n + 1 = n + 2 := by omega
  rw [e] at h
  simpa [layer_loop, layer_at, not_le] using h

/-- Witness of C3: the sample run starts with 15000 degrees of freedom and gains
10000 in each pass; its tolerance is zero, and it ends after pass 3 (`it = 4`), the
first pass with `ndofs >= 40000`. -/
theorem layer_loop_ends_iff_witness :
    layer_config.ERR_STOP = 0 ∧
      ∃ s', layer_loop layer_calls_growing layer_config 5 1 15000 = some (4, s') :=
  ⟨rfl, (layer_loop_ends_iff layer_calls_growing layer_config rfl
    (fun _ => by simp [layer_calls_growing]; norm_num) 5 2 15000).2
    ⟨by norm_num, by simp [layer_ndofs, layer_at, layer_next, layer_calls_growing, layer_config],
      by
        intro i hi
        interval_cases i <;>
          simp [layer_ndofs, layer_at, layer_next, layer_calls_growing, layer_config]⟩⟩

/-- C3 as stated fails: the sample run started with 30000 degrees of freedom ends
after its first pass, in which `ndofs` is 40000: equal to `NDOF_STOP`, not above it. -/
theorem layer_loop_ends_at_limit :
    layer_loop layer_calls_growing layer_config 1 1 30000 = some (2, 40000) ∧
      ¬ (layer_config.NDOF_STOP < layer_ndofs layer_calls_growing 30000) := by
  refine ⟨?_, ?_⟩
  · simp [layer_loop, do_while, layer_step, layer_calls_growing, layer_config]
    norm_num
  · simp [layer_ndofs, layer_calls_growing, layer_config]

/-! ### C4: termination of the tutorial loop -/

lemma coarse_at_succ (c : AdaptCalls σ ρ) (s : σ) (n : Nat) :
    coarse_at c s (n + 1) = adapted_state c (coarse_at c s n) := by
  simp [coarse_at, Function.iterate_succ_apply']

/-- When every pass either meets the stopping condition or leaves the coarse space
with more degrees of freedom, then among the first `n` passes one stops, or the
space has gained at least `n` degrees of freedom after them. -/
lemma stops_or_grows (c : AdaptCalls σ ρ) (k : StopConfig)
    (h : ∀ s, stops c k s ∨ c.get_num_dofs s < c.get_num_dofs (adapted_state c s)) (s : σ)
    (n : Nat) :
    (∃ i, i < n ∧ stops c k (coarse_at c s i)) ∨
      c.get_num_dofs s + n ≤ c.get_num_dofs (coarse_at c s n) := by
  induction n with
  | zero => right; simp [coarse_at]
  | succ n ih =>
    rcases ih with ⟨i, hi, hs⟩ | hn
    · exact Or.inl ⟨i, by omega, hs⟩
    · rcases h (coarse_at c s n) with hs | hg
      · exact Or.inl ⟨n, by omega, hs⟩
      · right
        rw [coarse_at_succ]
        push_cast
        omega

/-- C4, as the code has it: when every call of `hp.adapt` that the loop makes (the
calls in passes with `err_est ≥ ERR_STOP`) either returns `true` or leaves the
coarse space with more degrees of freedom than it had, the loop of
`tutorial/10-adapt` started from `s` ends after at most `d + 1` passes, `d` being
`NDOF_STOP` minus the initial number of degrees of freedom (zero when that is
negative); in its last pass `err_est < ERR_STOP`, or `hp.adapt` returned `true`,
or the coarse space reached `NDOF_STOP` degrees of freedom. -/
theorem adapt_loop_terminates (c : AdaptCalls σ ρ) (k : StopConfig)
    (hcall : ∀ s, k.ERR_STOP ≤ err_est c s →
      (c.adapt s (c.build_reference s)).2 = true ∨
        c.get_num_dofs s < c.get_num_dofs (adapted_state c s)) (s : σ) :
    ∃ n s', n ≤ (k.NDOF_STOP - c.get_num_dofs s).toNat ∧
      adapt_loop c k ((k.NDOF_STOP - c.get_num_dofs s).toNat + 1) 1 s = some (n + 2, s') ∧
      (err_est c (coarse_at c s n) < k.ERR_STOP ∨
        (c.adapt (coarse_at c s n) (c.build_reference (coarse_at c s n))).2 = true ∨
        k.NDOF_STOP ≤ c.get_num_dofs (adapted_state c (coarse_at c s n))) := by
  classical
  have hpass : ∀ s, stops c k s ∨ c.get_num_dofs s < c.get_num_dofs (adapted_state c s) := by
    intro s
    by_cases he : err_est c s < k.ERR_STOP
    · exact Or.inl (Or.inl he)
    · rcases hcall s (not_lt.1 he) with ht | hg
      · exact Or.inl (Or.inr (Or.inl ht))
      · exact Or.inr hg
  have hbound : ∃ i, i ≤ (k.NDOF_STOP - c.get_num_dofs s).toNat ∧ stops c k (coarse_at c s i) := by
    rcases stops_or_grows c k hpass s ((k.NDOF_STOP - c.get_num_dofs s).toNat + 1) with
      ⟨i, hi, hs⟩ | hn
    · exact ⟨i, by omega, hs⟩
    · refine ⟨(k.NDOF_STOP - c.get_num_dofs s).toNat, le_refl _, Or.inr (Or.inr ?_)⟩
      rw [coarse_at_succ] at hn
      have h3 := Int.self_le_toNat (k.NDOF_STOP - c.get_num_dofs s)
      push_cast at hn
      omega
  obtain ⟨i0, hi0, hs0⟩ := hbound
  have hex : ∃ i, stops c k (coarse_at c s i) := ⟨i0, hs0⟩
  have hle : Nat.find hex ≤ (k.NDOF_STOP - c.get_num_dofs s).toNat :=
    le_trans (Nat.find_min' hex hs0) hi0
  have hrun := (adapt_loop_eq_some_iff c k ((k.NDOF_STOP - c.get_num_dofs s).toNat + 1) 1 s
    (Nat.find hex)).2 ⟨by omega, Nat.find_spec hex, fun i hi => Nat.find_min hex hi⟩
  obtain ⟨s', hs'⟩ := hrun
  refine ⟨Nat.find hex, s', hle, ?_, Nat.find_spec hex⟩
  have e : 1 + Nat.find hex + 1 = Nat.find hex + 2 := by omega
  rw [e] at hs'
  exact hs'

/-- Witness of C4: in the sample run every call of `hp.adapt` adds 25000 degrees
of freedom; started from 100 the loop ends after 3 passes, within the bound
`60000 - 100 + 1`. -/
theorem adapt_loop_terminates_witness :
    (∀ s, tutorial_config.ERR_STOP ≤ err_est calls_growing s →
      (calls_growing.adapt s (calls_growing.build_reference s)).2 = true ∨
        calls_growing.get_num_dofs s <
          calls_growing.get_num_dofs (adapted_state calls_growing s)) ∧
      ∃ n s', n ≤ (tutorial_config.NDOF_STOP - calls_growing.get_num_dofs 100).toNat ∧
        adapt_loop calls_growing tutorial_config
          ((tutorial_config.NDOF_STOP - calls_growing.get_num_dofs 100).toNat + 1) 1 100
            = some (n + 2, s') ∧
        (err_est calls_growing (coarse_at calls_growing 100 n) < tutorial_config.ERR_STOP ∨
          (calls_growing.adapt (coarse_at calls_growing 100 n)
            (calls_growing.build_reference (coarse_at calls_growing 100 n))).2 = true ∨
          tutorial_config.NDOF_STOP ≤
            calls_growing.get_num_dofs (adapted_state calls_growing (coarse_at calls_growing 100 n))) :=
  ⟨fun s _ => Or.inr (by simp [calls_growing, adapted_state]),
    adapt_loop_terminates calls_growing tutorial_config
      (fun s _ => Or.inr (by simp [calls_growing, adapted_state])) 100⟩

/-- C4 as stated fails: in the sample run the error estimate stays at 10 per cent
(`ERR_STOP` is 1) and the space stays below 250 degrees of freedom
(`NDOF_STOP` is 60000); the loop started from 100 ends in its third pass, in which
`hp.adapt` returns `true`, and no pass has `err_est < ERR_STOP` or reaches
`NDOF_STOP`. -/
theorem adapt_loop_ends_without_limit :
    adapt_loop calls_refined_out tutorial_config 3 1 100 = some (4, 200) ∧
      ¬ (∃ n, err_est calls_refined_out (coarse_at calls_refined_out 100 n)
            < tutorial_config.ERR_STOP ∨
          tutorial_config.NDOF_STOP ≤
            calls_refined_out.get_num_dofs
              (adapted_state calls_refined_out (coarse_at calls_refined_out 100 n))) := by
  have hstep : ∀ s : Nat, s ≤ 249 → adapted_state calls_refined_out s ≤ 249 := by
    intro s hs
    simp only [adapted_state, calls_refined_out]
    split <;> simp <;> omega
  have hle : ∀ n, coarse_at calls_refined_out 100 n ≤ 249 := by
    intro n
    induction n with
    | zero => simp [coarse_at]
    | succ n ih => rw [coarse_at_succ]; exact hstep _ ih
  refine ⟨?_, ?_⟩
  · simp [adapt_loop, do_while, adapt_step, calls_refined_out, tutorial_config]
  · rintro ⟨n, h | h⟩
    · simp [err_est, calls_refined_out, tutorial_config] at h
    · have h1 := hstep _ (hle n)
      simp only [calls_refined_out, tutorial_config] at h h1
      omega

lemma do_while_stalled (body : σ → σ × Bool) (s : σ) (h : body s = (s, false))
    (fuel a : Nat) : do_while body fuel a s = none := by
  induction fuel generalizing a with
  | zero => rfl
  | succ f ih =>
    unfold do_while
    simp only [h, Bool.false_eq_true, if_false]
    exact ih (a + 1)

/-- The loop itself has no cap on the number of passes: run against calls in
which the error estimate stays at 10 per cent and `hp.adapt` neither changes the
space nor returns `true`, no amount of fuel lets it end.  The condition of
`adapt_loop_terminates` on the calls of `hp.adapt` cannot be dropped. -/
theorem adapt_loop_stalls :
    ¬ (∃ fuel, (adapt_loop calls_stalled tutorial_config fuel 1 100).isSome = true) ∧
      ¬ (∃ n, err_est calls_stalled (coarse_at calls_stalled 100 n) < tutorial_config.ERR_STOP ∨
          tutorial_config.NDOF_STOP ≤
            calls_stalled.get_num_dofs (adapted_state calls_stalled (coarse_at calls_stalled 100 n))) := by
  have hfix : ∀ n, coarse_at calls_stalled 100 n = 100 := by
    intro n
    induction n with
    | zero => rfl
    | succ n ih => rw [coarse_at_succ, ih]; rfl
  refine ⟨?_, ?_⟩
  · rintro ⟨fuel, h⟩
    have hb : (fun s => ((adapt_step calls_stalled tutorial_config s).coarse,
        (adapt_step calls_stalled tutorial_config s).done)) 100 = (100, false) := by
      simp [adapt_step, calls_stalled, tutorial_config]
    have := do_while_stalled (fun s => ((adapt_step calls_stalled tutorial_config s).coarse,
        (adapt_step calls_stalled tutorial_config s).done)) 100 hb fuel 1
    simp [adapt_loop, this] at h
  · rintro ⟨n, h⟩
    rw [hfix] at h
    simp [err_est, adapted_state, calls_stalled, tutorial_config] at h

end Loops

/-! ## The mesh hierarchy -/

section MeshLemmas

lemma refinedUpTo_zero (m : Mesh) : RefinedUpTo m m 0 m.elements [] where
  elements_eq := by simp
  olds_length := rfl
  nbase_eq := rfl
  visited_inactive := by intro i e hi; omega
  rest_same := by intro i _; rfl
  news_active := by intro e he; simp at he

lemma refinedUpTo_step (m R : Mesh) (k : Nat) (olds news : List Element)
    (h : RefinedUpTo m R k olds news) (hk : k < m.elements.length) :
    ∃ olds' news', RefinedUpTo m (if R.is_active k then R.refined k .iso else R) (k + 1)
      olds' news' := by
  have hko : k < olds.length := by rw [h.olds_length]; exact hk
  have hRk : R.elements[k]? = m.elements[k]? := by
    rw [h.elements_eq, List.getElem?_append_left hko]
    exact h.rest_same k (le_refl k)
  obtain ⟨e, he⟩ : ∃ e, m.elements[k]? = some e := ⟨m.elements[k], by simp [hk]⟩
  by_cases hact : e.active = true
  · -- the element is split
    have hactR : R.is_active k = true := by simp [Mesh.is_active, hRk, he, hact]
    have href : R.refined k .iso = R.split k e .iso := by
      simp [Mesh.refined, Mesh.refine_element, hRk, he, hact]
    rw [hactR, if_pos rfl, href]
    let parent : Element :=
      { e with active := false, sons := List.range' R.elements.length (num_sons e.kind .iso) }
    let sons : List Element :=
      (List.range' R.elements.length (num_sons e.kind .iso)).map fun i =>
        { id := i, kind := e.kind, active := true, parent := some k, sons := [],
          curved := e.curved }
    refine ⟨olds.set k parent, news ++ sons, ?_⟩
    refine ⟨?_, ?_, ?_, ?_, ?_, ?_⟩
    · simp only [Mesh.split, parent, sons]
      rw [h.elements_eq, List.set_append_left _ _ hko, List.append_assoc]
    · rw [List.length_set]; exact h.olds_length
    · simp [Mesh.split, h.nbase_eq]
    · intro i x hi hx
      by_cases hik : i = k
      · subst hik
        rw [List.getElem?_set_self hko] at hx
        cases hx
        rfl
      · rw [List.getElem?_set_ne (Ne.symm hik)] at hx
        exact h.visited_inactive i x (by omega) hx
    · intro i hi
      rw [List.getElem?_set_ne (by omega)]
      exact h.rest_same i (by omega)
    · intro x hx
      rcases List.mem_append.1 hx with hx | hx
      · exact h.news_active x hx
      · obtain ⟨j, _, rfl⟩ := List.mem_map.1 hx
        exact ⟨rfl, k, e, rfl, he, hact⟩
  · -- the element is inactive and is left alone
    have hact' : e.active = false := by simpa using hact
    have hactR : R.is_active k = false := by simp [Mesh.is_active, hRk, he, hact']
    rw [hactR]
    simp only [Bool.false_eq_true, if_false]
    refine ⟨olds, news, h.elements_eq, h.olds_length, h.nbase_eq, ?_, ?_, h.news_active⟩
    · intro i x hi hx
      by_cases hik : i = k
      · subst hik
        have : olds[i]? = some e := by rw [h.rest_same i (le_refl i)]; exact he
        rw [this] at hx
        cases hx
        exact hact'
      · exact h.visited_inactive i x (by omega) hx
    · intro i hi
      exact h.rest_same i (by omega)

lemma refinedUpTo_fold (m : Mesh) (k : Nat) (hk : k ≤ m.elements.length) :
    ∃ olds news, RefinedUpTo m
      ((List.range k).foldl (fun acc id => if acc.is_active id then acc.refined id .iso else acc) m)
      k olds news := by
  induction k with
  | zero => exact ⟨m.elements, [], refinedUpTo_zero m⟩
  | succ k ih =>
    obtain ⟨olds, news, h⟩ := ih (by omega)
    rw [List.range_succ, List.foldl_append]
    exact refinedUpTo_step m _ k olds news h (by omega)

/-- What `refine_all_elements` leaves: the old elements, all inactive, followed by
new elements, all active, each the son of an element that was active before. -/
lemma refine_all_elements_spec (m : Mesh) :
    ∃ olds news, m.refine_all_elements.elements = olds ++ news ∧
      olds.length = m.elements.length ∧ m.refine_all_elements.nbase = m.nbase ∧
      (∀ e ∈ olds, e.active = false) ∧
      (∀ e ∈ news, e.active = true ∧
        ∃ p pe, e.parent = some p ∧ m.elements[p]? = some pe ∧ pe.active = true) := by
  obtain ⟨olds, news, h⟩ := refinedUpTo_fold m m.elements.length (le_refl _)
  refine ⟨olds, news, h.elements_eq, h.olds_length, h.nbase_eq, ?_, h.news_active⟩
  intro e he
  obtain ⟨i, hi, hie⟩ := List.getElem_of_mem he
  exact h.visited_inactive i e (by rw [← h.olds_length]; exact hi)
    (by rw [List.getElem?_eq_getElem hi, hie])

lemma refine_all_elements_active_count (m : Mesh) :
    (m.refine_all_elements.elements.filter fun e => e.active).length + m.elements.length =
      m.refine_all_elements.elements.length := by
  obtain ⟨olds, news, hel, hlen, _, hold, hnew⟩ := refine_all_elements_spec m
  have h1 : olds.filter (fun e => e.active) = [] := by
    rw [List.filter_eq_nil_iff]
    intro e he
    simp [hold e he]
  have h2 : news.filter (fun e => e.active) = news := by
    rw [List.filter_eq_self]
    intro e he
    exact (hnew e he).1
  rw [hel, List.filter_append, h1, h2, List.length_append, ← hlen]
  simp
  omega

end MeshLemmas

/-! ### C6, C7, C8: the copies of a mesh -/

/-- C6: `Mesh::copy` preserves the maximum element id: after `dup.copy(&M)`,
`dup.get_max_element_id() == M.get_max_element_id()`, for every mesh `M`. -/
theorem copy_max_element_id (M : Mesh) :
    (Mesh.copy M).get_max_element_id = M.get_max_element_id := by
  simp [Mesh.copy, Mesh.get_max_element_id]

/-- C7: `Mesh::copy_base` copies only the coarsest elements: after
`dup.copy_base(&M)`, `dup.get_max_element_id() == M.get_num_base_elements()`, for
every mesh `M`. -/
theorem copy_base_max_element_id (M : Mesh) :
    (Mesh.copy_base M).get_max_element_id = M.get_num_base_elements := by
  simp [Mesh.copy_base, Mesh.get_max_element_id, Mesh.get_num_base_elements, M.nbase_le]

/-- For a mesh obtained by one `refine_all_elements` from a mesh that holds base
elements only (what `tests/mesh/copy` does to the loaded mesh), the refined
elements are the leaves: every element of the duplicate made by `copy_refine` is
active. -/
lemma copy_refine_leaves (B : Mesh) (hB : B.get_max_element_id = B.get_num_base_elements) :
    ∀ e ∈ B.refine_all_elements.copy_refine.elements, e.active = true := by
  obtain ⟨olds, news, hel, hlen, hnb, _, hnew⟩ := refine_all_elements_spec B
  simp only [Mesh.get_max_element_id, Mesh.get_num_base_elements] at hB
  intro e he
  simp only [Mesh.copy_refine, hel, hnb, List.mem_map] at he
  obtain ⟨ie, hie, rfl⟩ := he
  have hdrop : List.drop B.nbase (olds ++ news) = news := by
    rw [← hB, ← hlen]
    simp
  rw [hdrop] at hie
  have hmem : ie.2 ∈ news := by
    obtain ⟨i, x⟩ := ie
    have h := List.mem_enum hie
    simp only [h.2]
    exact List.getElem_mem h.1
  exact (hnew ie.2 hmem).1

section Reference

end Reference

/-! ## Marking -/

section Marking

/-- The squared test of `limit_reached` is the test of the specification:
`acc ≥ sqrt(THRESHOLD) × total`, for a non-negative threshold and non-negative errors. -/
lemma limit_reached_iff_sqrt (thr total acc : ℚ) (hthr : 0 ≤ thr) (htot : 0 ≤ total)
    (hacc : 0 ≤ acc) :
    limit_reached thr total acc ↔ Real.sqrt (thr : ℝ) * (total : ℝ) ≤ (acc : ℝ) := by
  have h1 : (0 : ℝ) ≤ (thr : ℝ) := by exact_mod_cast hthr
  have h2 : (0 : ℝ) ≤ (total : ℝ) := by exact_mod_cast htot
  have h3 : (0 : ℝ) ≤ (acc : ℝ) := by exact_mod_cast hacc
  have hs : (0 : ℝ) ≤ Real.sqrt (thr : ℝ) * (total : ℝ) := mul_nonneg (Real.sqrt_nonneg _) h2
  have hsq : (Real.sqrt (thr : ℝ) * (total : ℝ)) ^ 2 = (thr : ℝ) * (total : ℝ) ^ 2 := by
    rw [mul_pow, Real.sq_sqrt h1]
  unfold limit_reached
  constructor
  · intro h
    have h' : (thr : ℝ) * (total : ℝ) ^ 2 ≤ (acc : ℝ) ^ 2 := by exact_mod_cast h
    rw [← hsq] at h'
    exact (pow_le_pow_iff_left₀ hs h3 two_ne_zero).1 h'
  · intro h
    have h' : (Real.sqrt (thr : ℝ) * (total : ℝ)) ^ 2 ≤ (acc : ℝ) ^ 2 :=
      pow_le_pow_left₀ hs h 2
    rw [hsq] at h'
    exact_mod_cast h'

lemma last_error_cons (last : Option ℚ) (x : Nat × ℚ) (l : List (Nat × ℚ)) :
    last_error last (x :: l) = last_error (some x.2) l := by
  cases l with
  | nil => simp [last_error]
  | cons y l =>
    simp only [last_error, List.getLast?_cons_cons]
    rw [List.getLast?_eq_getLast (y :: l) (List.cons_ne_nil y l)]

lemma error_sum_cons (x : Nat × ℚ) (l : List (Nat × ℚ)) :
    error_sum (x :: l) = x.2 + error_sum l := by
  simp [error_sum]

/-- Strategy 0 marks a prefix of the list; when it leaves elements unmarked, the
limit is reached and the first unmarked error differs from the last marked one. -/
lemma mark_strategy0_prefix (thr total : ℚ) (acc : ℚ) (last : Option ℚ) (l : List (Nat × ℚ)) :
    ∃ rest, l = mark_strategy0 thr total acc last l ++ rest ∧
      ∀ y ys, rest = y :: ys →
        limit_reached thr total (acc + error_sum (mark_strategy0 thr total acc last l)) ∧
        last_error last (mark_strategy0 thr total acc last l) ≠ some y.2 := by
  induction l generalizing acc last with
  | nil => exact ⟨[], by simp [mark_strategy0], by intro y ys h; cases h⟩
  | cons x l ih =>
    by_cases hstop : limit_reached thr total acc ∧ last ≠ some x.2
    · have hm : mark_strategy0 thr total acc last (x :: l) = [] := by
        simp only [mark_strategy0, if_pos hstop]
      refine ⟨x :: l, by rw [hm]; rfl, ?_⟩
      intro y ys h
      cases h
      rw [hm]
      exact ⟨by simpa [error_sum] using hstop.1, by simpa [last_error] using hstop.2⟩
    · obtain ⟨rest, hrest, hprop⟩ := ih (acc + x.2) (some x.2)
      have hm : mark_strategy0 thr total acc last (x :: l) =
          x :: mark_strategy0 thr total (acc + x.2) (some x.2) l := by
        simp only [mark_strategy0, if_neg hstop]
      refine ⟨rest, ?_, ?_⟩
      · rw [hm, List.cons_append, ← hrest]
      · intro y ys h
        rw [hm, last_error_cons, error_sum_cons, ← add_assoc]
        exact hprop y ys h

/-- Every element strategy 0 marks is taken before the limit is reached, or has
the error of the element marked just before it. -/
lemma mark_strategy0_taken (thr total : ℚ) (acc : ℚ) (last : Option ℚ) (l : List (Nat × ℚ))
    (A : List (Nat × ℚ)) (x : Nat × ℚ) (B : List (Nat × ℚ))
    (h : mark_strategy0 thr total acc last l = A ++ x :: B) :
    ¬ limit_reached thr total (acc + error_sum A) ∨ last_error last A = some x.2 := by
  induction l generalizing acc last A with
  | nil => simp [mark_strategy0] at h
  | cons y l ih =>
    by_cases hstop : limit_reached thr total acc ∧ last ≠ some y.2
    · simp [mark_strategy0, hstop] at h
    · have hm : mark_strategy0 thr total acc last (y :: l) =
          y :: mark_strategy0 thr total (acc + y.2) (some y.2) l := by
        simp only [mark_strategy0, if_neg hstop]
      rw [hm] at h
      cases A with
      | nil =>
        simp only [List.nil_append, List.cons.injEq] at h
        obtain ⟨hxy, _⟩ := h
        subst hxy
        by_cases hr : limit_reached thr total acc
        · right
          have : ¬ last ≠ some y.2 := fun hne => hstop ⟨hr, hne⟩
          simpa [last_error] using this
        · left
          simpa [error_sum] using hr
      | cons a A' =>
        simp only [List.cons_append, List.cons.injEq] at h
        obtain ⟨hay, hrest⟩ := h
        subst hay
        have := ih (acc + y.2) (some y.2) A' hrest
        rw [last_error_cons, error_sum_cons, ← add_assoc]
        exact this

/-! ### C9: strategy 0 -/

/-- C9: under `STRATEGY = 0`, with the elements sorted by decreasing error, the
marked elements are a leading part of the sorted list (`sorted = marked ++ rest`);
marking stops only once the accumulated error has reached sqrt(THRESHOLD) x total
error; every marked element is taken before that limit is reached or has the
error of the element marked just before it; and no unmarked element has the
error of a marked one, so a group of elements with equal errors is never split. -/
theorem mark_strategy0_spec (THRESHOLD total : ℚ) (sorted : List (Nat × ℚ))
    (hsorted : sorted.Pairwise fun a b => b.2 ≤ a.2) :
    ∃ rest, sorted = mark 0 THRESHOLD total sorted ++ rest ∧
      (rest ≠ [] → limit_reached THRESHOLD total (error_sum (mark 0 THRESHOLD total sorted))) ∧
      (∀ A x B, mark 0 THRESHOLD total sorted = A ++ x :: B →
        ¬ limit_reached THRESHOLD total (error_sum A) ∨
          ∃ a, A.getLast? = some a ∧ a.2 = x.2) ∧
      (∀ x ∈ mark 0 THRESHOLD total sorted, ∀ y ∈ rest, y.2 ≠ x.2) := by
  have hmark : mark 0 THRESHOLD total sorted = mark_strategy0 THRESHOLD total 0 none sorted := rfl
  obtain ⟨rest, hrest, hprop⟩ := mark_strategy0_prefix THRESHOLD total 0 none sorted
  rw [← hmark] at hrest hprop
  refine ⟨rest, hrest, ?_, ?_, ?_⟩
  · intro hne
    obtain ⟨y, ys, hy⟩ := List.exists_cons_of_ne_nil hne
    simpa using (hprop y ys hy).1
  · intro A x B hAB
    rw [hmark] at hAB
    rcases mark_strategy0_taken THRESHOLD total 0 none sorted A x B hAB with h | h
    · left; simpa using h
    · right
      unfold last_error at h
      cases hl : A.getLast? with
      | none => rw [hl] at h; simp at h
      | some a =>
        rw [hl] at h
        simp only [Option.some.injEq] at h
        exact ⟨a, rfl, h⟩
  · intro x hx y hy
    obtain ⟨y0, ys, hy0⟩ := List.exists_cons_of_ne_nil (List.ne_nil_of_mem hy)
    have hne := (hprop y0 ys hy0).2
    have hM : mark 0 THRESHOLD total sorted ≠ [] := List.ne_nil_of_mem hx
    obtain ⟨m, hm⟩ : ∃ m, (mark 0 THRESHOLD total sorted).getLast? = some m :=
      ⟨_, List.getLast?_eq_getLast _ hM⟩
    have hne' : m.2 ≠ y0.2 := by
      intro heq
      apply hne
      simp [last_error, hm, heq]
    rw [hrest, List.pairwise_append] at hsorted
    obtain ⟨hMs, hRs, hcross⟩ := hsorted
    have hm_mem : m ∈ mark 0 THRESHOLD total sorted := List.mem_of_getLast?_eq_some hm
    have hy0_mem : y0 ∈ rest := by rw [hy0]; exact List.mem_cons_self _ _
    -- the last marked error is strictly above the first unmarked one
    have h1 : y0.2 < m.2 := lt_of_le_of_ne (hcross m hm_mem y0 hy0_mem) (Ne.symm hne')
    -- every marked error is at least the last marked one
    have h2 : m.2 ≤ x.2 := by
      obtain ⟨init, hinit⟩ : ∃ init, mark 0 THRESHOLD total sorted = init ++ [m] := by
        refine ⟨(mark 0 THRESHOLD total sorted).dropLast, ?_⟩
        have := List.dropLast_append_getLast? m hm
        exact this.symm
      rw [hinit] at hMs hx
      rcases List.mem_append.1 hx with hxi | hxm
      · exact (List.pairwise_append.1 hMs).2.2 x hxi m (List.mem_singleton_self m)
      · rw [List.mem_singleton.1 hxm]
    -- every unmarked error is at most the first unmarked one
    have h3 : y.2 ≤ y0.2 := by
      rw [hy0] at hRs hy
      rcases List.mem_cons.1 hy with h | h
      · rw [h]
      · exact (List.pairwise_cons.1 hRs).1 y h
    intro heq
    rw [heq] at h3
    exact absurd (lt_of_lt_of_le h1 h2) (not_lt.mpr h3)

/-- Witness of C9: the sample errors 5, 3, 3, 3, 1 are sorted; with
`THRESHOLD = 1/4` and total error 15 the limit 7.5 is reached after the second
element, and the two further elements of error 3 are marked with it. -/
theorem mark_strategy0_spec_witness :
    (sample_errors.Pairwise fun a b => b.2 ≤ a.2) ∧
      mark 0 (1 / 4) 15 sample_errors = [(7, 5), (2, 3), (4, 3), (0, 3)] ∧
      ∃ rest, sample_errors = mark 0 (1 / 4) 15 sample_errors ++ rest ∧
        (rest ≠ [] → limit_reached (1 / 4) 15 (error_sum (mark 0 (1 / 4) 15 sample_errors))) ∧
        (∀ A x B, mark 0 (1 / 4) 15 sample_errors = A ++ x :: B →
          ¬ limit_reached (1 / 4) 15 (error_sum A) ∨ ∃ a, A.getLast? = some a ∧ a.2 = x.2) ∧
        (∀ x ∈ mark 0 (1 / 4) 15 sample_errors, ∀ y ∈ rest, y.2 ≠ x.2) :=
  ⟨by decide,
    by simp [mark, mark_strategy0, sample_errors, limit_reached]; norm_num,
    mark_strategy0_spec (1 / 4) 15 sample_errors (by decide)⟩

/-! ### C10: strategy 2 -/

/-- C10: under `STRATEGY = 2` the marked elements are exactly the elements whose
error exceeds `THRESHOLD`; an element whose error is below `THRESHOLD` is not
marked, at whatever position `i` of the sorted list it stands. -/
theorem mark_strategy2_spec (THRESHOLD total : ℚ) (sorted : List (Nat × ℚ)) :
    (∀ x, x ∈ mark 2 THRESHOLD total sorted ↔ x ∈ sorted ∧ THRESHOLD < x.2) ∧
    (∀ (i : Nat) (x : Nat × ℚ), sorted[i]? = some x → x.2 < THRESHOLD → x ∉ mark 2 THRESHOLD total sorted) := by
  have hmark : mark 2 THRESHOLD total sorted = sorted.filter fun x => THRESHOLD < x.2 := rfl
  refine ⟨?_, ?_⟩
  · intro x
    rw [hmark, List.mem_filter]
    simp
  · intro i x _ hlt hmem
    rw [hmark, List.mem_filter] at hmem
    have : THRESHOLD < x.2 := by simpa using hmem.2
    exact absurd hlt (not_lt.mpr (le_of_lt this))

end Marking


/-! ## The nonlinear system -/

section Nonlin

/-! ### The residual norms -/

lemma accumulate_norms_succ (F : Nat → ℚ) (n : Nat) :
    accumulate_norms F (n + 1) =
      { l2 := (accumulate_norms F n).l2 + sqr (F n),
        l1 := (accumulate_norms F n).l1 + magn (F n),
        max := if magn (F n) > (accumulate_norms F n).max then magn (F n)
          else (accumulate_norms F n).max } := by
  simp [accumulate_norms, List.range_succ, List.foldl_append]

lemma accumulate_norms_l2 (F : Nat → ℚ) (n : Nat) :
    (accumulate_norms F n).l2 = ∑ i ∈ Finset.range n, F i ^ 2 := by
  induction n with
  | zero => simp [accumulate_norms]
  | succ n ih => rw [accumulate_norms_succ, Finset.sum_range_succ, ← ih]; simp [sqr, sq]

lemma accumulate_norms_l1 (F : Nat → ℚ) (n : Nat) :
    (accumulate_norms F n).l1 = ∑ i ∈ Finset.range n, |F i| := by
  induction n with
  | zero => simp [accumulate_norms]
  | succ n ih => rw [accumulate_norms_succ, Finset.sum_range_succ, ← ih]; simp [magn]

lemma accumulate_norms_max (F : Nat → ℚ) (n : Nat) :
    (∀ i, i < n → |F i| ≤ (accumulate_norms F n).max) ∧
      (n = 0 → (accumulate_norms F n).max = 0) ∧
      (0 < n → ∃ i, i < n ∧ (accumulate_norms F n).max = |F i|) := by
  induction n with
  | zero => simp [accumulate_norms]
  | succ n ih =>
    obtain ⟨hle, hzero, hex⟩ := ih
    rw [accumulate_norms_succ]
    simp only [magn]
    by_cases hgt : |F n| > (accumulate_norms F n).max
    · simp only [hgt, if_true]
      refine ⟨?_, by omega, fun _ => ⟨n, by omega, rfl⟩⟩
      intro i hi
      by_cases hin : i = n
      · rw [hin]
      · exact le_trans (hle i (by omega)) (le_of_lt hgt)
    · simp only [hgt, if_false]
      refine ⟨?_, by omega, ?_⟩
      · intro i hi
        by_cases hin : i = n
        · rw [hin]; exact not_lt.mp hgt
        · exact hle i (by omega)
      · intro _
        by_cases hn : n = 0
        · refine ⟨0, by omega, ?_⟩
          subst hn
          have h0 := hzero rfl
          rw [h0] at hgt ⊢
          exact le_antisymm (abs_nonneg _) (not_lt.mp hgt)
        · obtain ⟨i, hi, hmax⟩ := hex (Nat.pos_of_ne_zero hn)
          exact ⟨i, by omega, hmax⟩

lemma assemble_false (c : NonlinCalls) (u : Solution) (sys : NonlinSystem) :
    sys.assemble c u false = Except.ok
      { toLinSystem :=
          { sys.toLinSystem with
            A := (c.lin_assemble sys.toLinSystem u).1,
            RHS := fun i =>
              if i < sys.ndof.toNat then (c.lin_assemble sys.toLinSystem u).2 i * (-sys.alpha)
              else (c.lin_assemble sys.toLinSystem u).2 i },
        alpha := sys.alpha,
        res_l2 := c.sqrt
          (accumulate_norms (c.lin_assemble sys.toLinSystem u).2 sys.ndof.toNat).l2,
        res_l1 := (accumulate_norms (c.lin_assemble sys.toLinSystem u).2 sys.ndof.toNat).l1,
        res_max := (accumulate_norms (c.lin_assemble sys.toLinSystem u).2 sys.ndof.toNat).max } := by
  simp [NonlinSystem.assemble]

/-! ### C19: what `assemble` computes -/

/-- C19: `assemble(true)` is a fatal error; `assemble()` returns, and with `F` the
residual vector that `LinSystem::assemble` stored in `RHS`, it leaves `res_l1` the
sum of `|F_i|`, `res_l2` the `sqrt` of the sum of `F_i^2`, `res_max` the maximum
of `|F_i|` (an upper bound that is attained; zero when there is no degree of
freedom) and `RHS_i = -alpha * F_i` for every `i < ndof`; the three norms are the
same whatever the value of `alpha`. -/
theorem assemble_norms (c : NonlinCalls) (u : Solution) (sys : NonlinSystem) :
    sys.assemble c u true = Except.error Fatal.rhsonly_meaningless ∧
    ∃ sys', sys.assemble c u false = Except.ok sys' ∧
      sys'.res_l1 = ∑ i ∈ Finset.range sys.ndof.toNat, |(c.lin_assemble sys.toLinSystem u).2 i| ∧
      sys'.res_l2 =
        c.sqrt (∑ i ∈ Finset.range sys.ndof.toNat, (c.lin_assemble sys.toLinSystem u).2 i ^ 2) ∧
      (∀ i, i < sys.ndof.toNat → |(c.lin_assemble sys.toLinSystem u).2 i| ≤ sys'.res_max) ∧
      (0 < sys.ndof.toNat →
        ∃ i, i < sys.ndof.toNat ∧ sys'.res_max = |(c.lin_assemble sys.toLinSystem u).2 i|) ∧
      (sys.ndof.toNat = 0 → sys'.res_max = 0) ∧
      (∀ i, i < sys.ndof.toNat →
        sys'.RHS i = -sys.alpha * (c.lin_assemble sys.toLinSystem u).2 i) ∧
      (∀ a : ℚ, ∃ sys'', NonlinSystem.assemble c u { sys with alpha := a } false = Except.ok sys'' ∧
        sys''.res_l1 = sys'.res_l1 ∧ sys''.res_l2 = sys'.res_l2 ∧ sys''.res_max = sys'.res_max) := by
  refine ⟨by simp [NonlinSystem.assemble, error], ?_⟩
  refine ⟨_, assemble_false c u sys, ?_, ?_, ?_, ?_, ?_, ?_, ?_⟩
  · exact accumulate_norms_l1 _ _
  · simp only [accumulate_norms_l2]
  · exact (accumulate_norms_max _ _).1
  · exact (accumulate_norms_max _ _).2.2
  · exact (accumulate_norms_max _ _).2.1
  · intro i hi
    simp only [hi, if_true]
    ring
  · intro a
    exact ⟨_, assemble_false c u { sys with alpha := a }, rfl, rfl, rfl⟩

/-! ### C17, C18: `solve` -/

lemma solve_ok (c : NonlinCalls) (sys : NonlinSystem) (sln : List Solution) (vec : Nat → ℚ)
    (h1 : (sln.length : Int) = sys.neq) (h2 : sys.solver ≠ none) (h3 : sys.Vec = some vec)
    (h4 : sys.ndof = sys.A.size) :
    sys.solve c sln = Except.ok
      (true,
        { sys with
          Vec := some fun i =>
            if i < sys.ndof.toNat then
              vec i + c.umfpack sys.A (copy_entries sys.RHS sys.ndof.toNat) i
            else vec i },
        sln.enum.map fun is =>
          ({ space := is.1,
             coef := fun i =>
               if i < sys.ndof.toNat then
                 vec i + c.umfpack sys.A (copy_entries sys.RHS sys.ndof.toNat) i
               else vec i } : Solution)) := by
  simp [NonlinSystem.solve, h1, h2, h3, h4]

lemma solve_error_iff (c : NonlinCalls) (sys : NonlinSystem) (sln : List Solution) :
    (∃ e, sys.solve c sln = Except.error e) ↔
      ((sln.length : Int) ≠ sys.neq ∨ sys.solver = none ∨ sys.Vec = none ∨
        sys.ndof ≠ sys.A.size) := by
  by_cases h1 : (sln.length : Int) = sys.neq
  · by_cases h2 : sys.solver = none
    · simp [NonlinSystem.solve, h1, h2, error]
    · cases h3 : sys.Vec with
      | none => simp [NonlinSystem.solve, h1, h2, h3, error]
      | some vec =>
        by_cases h4 : sys.ndof = sys.A.size
        · rw [solve_ok c sys sln vec h1 h2 h3 h4]
          simp [h1, h2, h4]
        · simp [NonlinSystem.solve, h1, h2, h3, h4, error]
  · simp [NonlinSystem.solve, h1, error]

/-- C17: `NonlinSystem::solve(Tuple<Solution*>)` ends in a fatal error if and only
if the number of solutions differs from the number of equations, or no matrix
solver is set, or `Vec` is `NULL`, or the number of degrees of freedom differs
from the matrix size; and a call that does not end in a fatal error returns `true`. -/
theorem solve_fatal_iff (c : NonlinCalls) (sys : NonlinSystem) (sln : List Solution) :
    ((∃ e, sys.solve c sln = Except.error e) ↔
      ((sln.length : Int) ≠ sys.neq ∨ sys.solver = none ∨ sys.Vec = none ∨
        sys.ndof ≠ sys.A.size)) ∧
    ((∃ e, sys.solve c sln = Except.error e) ∨
      ∃ sys' sln', sys.solve c sln = Except.ok (true, sys', sln')) := by
  refine ⟨solve_error_iff c sys sln, ?_⟩
  by_cases h1 : (sln.length : Int) = sys.neq
  · by_cases h2 : sys.solver = none
    · exact Or.inl ((solve_error_iff c sys sln).2 (Or.inr (Or.inl h2)))
    · cases h3 : sys.Vec with
      | none => exact Or.inl ((solve_error_iff c sys sln).2 (Or.inr (Or.inr (Or.inl h3))))
      | some vec =>
        by_cases h4 : sys.ndof = sys.A.size
        · exact Or.inr ⟨_, _, solve_ok c sys sln vec h1 h2 h3 h4⟩
        · exact Or.inl ((solve_error_iff c sys sln).2 (Or.inr (Or.inr (Or.inr h4))))
  · exact Or.inl ((solve_error_iff c sys sln).2 (Or.inl h1))

/-- What a call of `solve` that returns has passed and done. -/
lemma solve_returns (c : NonlinCalls) (sys : NonlinSystem) (sln : List Solution)
    (r : Bool × NonlinSystem × List Solution) (h : sys.solve c sln = Except.ok r) :
    ∃ vec, (sln.length : Int) = sys.neq ∧ sys.solver ≠ none ∧ sys.Vec = some vec ∧
      sys.ndof = sys.A.size ∧
      r = (true,
        { sys with
          Vec := some fun i =>
            if i < sys.ndof.toNat then
              vec i + c.umfpack sys.A (copy_entries sys.RHS sys.ndof.toNat) i
            else vec i },
        sln.enum.map fun is =>
          ({ space := is.1,
             coef := fun i =>
               if i < sys.ndof.toNat then
                 vec i + c.umfpack sys.A (copy_entries sys.RHS sys.ndof.toNat) i
               else vec i } : Solution)) := by
  have hne : ¬ ∃ e, sys.solve c sln = Except.error e := by
    rintro ⟨e, he⟩
    rw [he] at h
    cases h
  rw [solve_error_iff] at hne
  push_neg at hne
  obtain ⟨h1, h2, h3, h4⟩ := hne
  obtain ⟨vec, hvec⟩ := Option.ne_none_iff_exists'.1 h3
  refine ⟨vec, h1, h2, hvec, h4, ?_⟩
  rw [solve_ok c sys sln vec h1 h2 hvec h4] at h
  cases h
  rfl

/-- C18: a call of `solve` that returns performs the update `Y_{n+1} = Y_n + dY`,
`dY` being what the linear solver returns for the matrix `A` and a copy of `RHS`:
the new `Vec[i]` is the old `Vec[i]` plus `dY[i]` for every `i < ndof` (the other
entries are not touched), `RHS` and `A` are left as they were; and when the
linear solver solves the systems of the matrix `A`, `dY` solves `A dY = RHS`. -/
theorem solve_update (c : NonlinCalls) (sys : NonlinSystem) (sln : List Solution)
    (flag : Bool) (sys' : NonlinSystem) (sln' : List Solution)
    (h : sys.solve c sln = Except.ok (flag, sys', sln'))
    (hlin : ∀ b, sys.A.solved_by (c.umfpack sys.A b) b) :
    ∃ vec vec' dY, sys.Vec = some vec ∧ sys'.Vec = some vec' ∧
      dY = c.umfpack sys.A (copy_entries sys.RHS sys.ndof.toNat) ∧
      (∀ i, i < sys.ndof.toNat → sys.A.mul_vec dY i = sys.RHS i) ∧
      (∀ i, i < sys.ndof.toNat → vec' i = vec i + dY i) ∧
      (∀ i, sys.ndof.toNat ≤ i → vec' i = vec i) ∧
      sys'.RHS = sys.RHS ∧ sys'.A = sys.A ∧ flag = true := by
  obtain ⟨vec, _, _, hvec, hsize, hr⟩ := solve_returns c sys sln _ h
  simp only [Prod.mk.injEq] at hr
  obtain ⟨hflag, hsys, _⟩ := hr
  subst hsys
  refine ⟨vec, _, c.umfpack sys.A (copy_entries sys.RHS sys.ndof.toNat), hvec, rfl, rfl,
    ?_, ?_, ?_, rfl, rfl, hflag⟩
  · intro i hi
    have := hlin (copy_entries sys.RHS sys.ndof.toNat) i (by rw [← hsize]; exact hi)
    rw [this]
    simp [copy_entries, hi]
  · intro i hi
    simp [hi]
  · intro i hi
    have : ¬ i < sys.ndof.toNat := by omega
    simp [this]

lemma identity_mul_vec (n : Int) (b : Nat → ℚ) (i : Nat) (hi : i < n.toNat) :
    (identity_matrix n).mul_vec b i = b i := by
  simp only [CooMatrix.mul_vec, identity_matrix]
  have : ∀ m, i < m →
      ((List.range m).map fun j => (if i = j then (1 : ℚ) else 0) * b j).sum = b i := by
    intro m
    induction m with
    | zero => intro h; omega
    | succ m ih =>
      intro h
      rw [List.range_succ, List.map_append, List.sum_append]
      by_cases him : i = m
      · subst him
        have hz : ((List.range i).map fun j => (if i = j then (1 : ℚ) else 0) * b j).sum = 0 := by
          apply List.sum_eq_zero
          intro x hx
          obtain ⟨j, hj, rfl⟩ := List.mem_map.1 hx
          have : i ≠ j := by
            have := List.mem_range.1 hj
            omega
          simp [this]
        rw [hz]
        simp
      · have hne : ¬ i = m := him
        rw [ih (by omega)]
        simp [hne]
  exact this _ hi

/-- Witness of C18: the sample system as `assemble()` leaves it on the iterate 5
(`Vec = 5`, `RHS = -2`, the Jacobian the identity) passes the tests of `solve`, the
sample linear solver solves the systems of its matrix, and the update holds for
the system the call leaves: the increment is `-2` and `Vec` goes from 5 to 3 in
both components, while `RHS` stays `-2`. -/
theorem solve_update_witness :
    ∃ flag sys' sln',
      solve_sample_system.solve newton_sample_calls [constant_solution 0]
        = Except.ok (flag, sys', sln') ∧
      (∀ b, solve_sample_system.A.solved_by
        (newton_sample_calls.umfpack solve_sample_system.A b) b) ∧
      (∃ vec vec' dY, solve_sample_system.Vec = some vec ∧ sys'.Vec = some vec' ∧
        dY = newton_sample_calls.umfpack solve_sample_system.A
          (copy_entries solve_sample_system.RHS solve_sample_system.ndof.toNat) ∧
        (∀ i, i < solve_sample_system.ndof.toNat →
          solve_sample_system.A.mul_vec dY i = solve_sample_system.RHS i) ∧
        (∀ i, i < solve_sample_system.ndof.toNat → vec' i = vec i + dY i) ∧
        (∀ i, solve_sample_system.ndof.toNat ≤ i → vec' i = vec i) ∧
        sys'.RHS = solve_sample_system.RHS ∧ sys'.A = solve_sample_system.A ∧
        flag = true) ∧
      solve_sample_system.Vec.map (fun v => (v 0, v 1)) = some (5, 5) ∧
      (newton_sample_calls.umfpack solve_sample_system.A
        (copy_entries solve_sample_system.RHS solve_sample_system.ndof.toNat) 0,
       newton_sample_calls.umfpack solve_sample_system.A
        (copy_entries solve_sample_system.RHS solve_sample_system.ndof.toNat) 1) = (-2, -2) ∧
      sys'.Vec.map (fun v => (v 0, v 1)) = some (3, 3) ∧
      (sys'.RHS 0, sys'.RHS 1) = (-2, -2) :=
  ⟨_, _, _,
    solve_ok newton_sample_calls solve_sample_system [constant_solution 0] (fun _ => 5)
      rfl (by simp [solve_sample_system, NonlinSystem.init_nonlin]) rfl rfl,
    fun b i hi => identity_mul_vec 2 b i hi,
    solve_update newton_sample_calls solve_sample_system [constant_solution 0] _ _ _
      (solve_ok newton_sample_calls solve_sample_system [constant_solution 0] (fun _ => 5)
        rfl (by simp [solve_sample_system, NonlinSystem.init_nonlin]) rfl rfl)
      (fun b i hi => identity_mul_vec 2 b i hi),
    by simp [solve_sample_system, NonlinSystem.init_nonlin],
    by simp [solve_sample_system, NonlinSystem.init_nonlin, newton_sample_calls, copy_entries],
    by simp [solve_sample_system, NonlinSystem.init_nonlin, newton_sample_calls, copy_entries]
       norm_num,
    by simp [solve_sample_system, NonlinSystem.init_nonlin]⟩

end Nonlin

/-! ## Newton's loop -/

section Newton

/-- An `int` result within the range of `int` is kept as it is. -/
lemma wrap_int_of_range (x : Int) (h1 : -2147483648 ≤ x) (h2 : x ≤ INT_MAX) :
    wrap_int x = x := by
  unfold wrap_int
  unfold INT_MAX at h2
  omega

/-- The value of an `int` is within the range of `int`. -/
lemma wrap_int_range (x : Int) : -2147483648 ≤ wrap_int x ∧ wrap_int x ≤ INT_MAX := by
  unfold wrap_int INT_MAX
  omega

/-- What one pass of the body of the loop of `solve_newton` does when it comes
through: the counters go up by one, `assemble()` has worked on the previous
iterate, the norm kept for the test is the one of the residual of that previous
iterate, and the new iterate is in `Vec` and in `u_prev`. -/
lemma newton_iteration_spec (c : NonlinCalls) (st st' : NewtonState)
    (h : newton_iteration c st = Except.ok st') :
    st'.it = wrap_int (st.it + 1) ∧ st'.solved = st.solved + 1 ∧
      st'.assembled = st.assembled ++ [st.u_prev] ∧
      st'.res_l2_norm = residual_norm c st ∧
      st'.sys.Vec = some st'.u_prev.coef ∧
      st'.sys.neq = st.sys.neq ∧ st'.sys.solver = st.sys.solver ∧
      st'.sys.ndof = st.sys.ndof ∧ st.sys.neq = 1 := by
  unfold newton_iteration at h
  rw [assemble_false] at h
  simp only at h
  split at h
  · cases h
  · rename_i r hr
    obtain ⟨vec, h1, _, _, _, hrr⟩ := solve_returns c _ _ r hr
    simp only [Except.ok.injEq] at h
    subst h
    subst hrr
    refine ⟨rfl, rfl, rfl, rfl, ?_, rfl, rfl, rfl, ?_⟩
    · simp [List.enum]
    · simpa using h1.symm

lemma newton_iteration_ok (c : NonlinCalls) (st : NewtonState) (hready : newton_ready c st.sys) :
    ∃ st', newton_iteration c st = Except.ok st' ∧ newton_ready c st'.sys := by
  obtain ⟨h1, h2, h3, h4⟩ := hready
  obtain ⟨vec, hvec⟩ := Option.ne_none_iff_exists'.1 h3
  have hsolve := solve_ok c
    { toLinSystem :=
        { st.sys.toLinSystem with
          A := (c.lin_assemble st.sys.toLinSystem st.u_prev).1,
          RHS := fun i =>
            if i < st.sys.ndof.toNat then
              (c.lin_assemble st.sys.toLinSystem st.u_prev).2 i * (-st.sys.alpha)
            else (c.lin_assemble st.sys.toLinSystem st.u_prev).2 i },
      alpha := st.sys.alpha,
      res_l2 := c.sqrt
        (accumulate_norms (c.lin_assemble st.sys.toLinSystem st.u_prev).2 st.sys.ndof.toNat).l2,
      res_l1 :=
        (accumulate_norms (c.lin_assemble st.sys.toLinSystem st.u_prev).2 st.sys.ndof.toNat).l1,
      res_max :=
        (accumulate_norms (c.lin_assemble st.sys.toLinSystem st.u_prev).2 st.sys.ndof.toNat).max }
    [st.sln_iter] vec (by simpa using h1.symm) h2 hvec
    (h4 st.sys.toLinSystem st.u_prev).symm
  unfold newton_iteration
  rw [assemble_false]
  simp only
  rw [hsolve]
  refine ⟨_, rfl, ?_⟩
  exact ⟨h1, h2, by simp, h4⟩

lemma newton_iterate_succ (c : NonlinCalls) (k : Nat) (st : NewtonState) :
    newton_iterate c (k + 1) st =
      match newton_iteration c st with
      | Except.ok s => newton_iterate c k s
      | Except.error e => Except.error e := by
  induction k with
  | zero =>
    simp only [newton_iterate]
    cases newton_iteration c st <;> rfl
  | succ k ih =>
    rw [newton_iterate, ih]
    cases h : newton_iteration c st with
    | error e => rfl
    | ok s => simp only [newton_iterate]

/-- The state after `k` passes: counters, and the iterates `assemble()` worked on. -/
lemma newton_iterate_spec (c : NonlinCalls) (k : Nat) (st s : NewtonState)
    (h : newton_iterate c k st = Except.ok s) :
    (-2147483648 ≤ st.it → st.it + k ≤ INT_MAX → s.it = st.it + k) ∧
      s.solved = st.solved + k ∧
      s.assembled.length = st.assembled.length + k ∧
      ∀ j, j < k → ∃ sj, newton_iterate c j st = Except.ok sj ∧
        s.assembled[st.assembled.length + j]? = some sj.u_prev := by
  induction k generalizing s with
  | zero =>
    simp only [newton_iterate, Except.ok.injEq] at h
    subst h
    simp
  | succ k ih =>
    simp only [newton_iterate] at h
    cases hk : newton_iterate c k st with
    | error e => rw [hk] at h; cases h
    | ok sk =>
      rw [hk] at h
      simp only at h
      obtain ⟨hit, hsolved, hlen, hall⟩ := ih sk hk
      obtain ⟨h1, h2, h3, _⟩ := newton_iteration_spec c sk s h
      refine ⟨?_, by rw [h2, hsolved]; ring,
        by rw [h3, List.length_append, hlen]; simp; ring, ?_⟩
      · intro hlo hhi
        push_cast at hhi
        have hk' := hit hlo (by omega)
        rw [h1, hk', wrap_int_of_range _ (by omega) (by omega)]
        push_cast
        ring
      intro j hj
      by_cases hjk : j = k
      · subst hjk
        refine ⟨sk, hk, ?_⟩
        rw [h3, ← hlen]
        simp
      · obtain ⟨sj, hsj, hget⟩ := hall j (by omega)
        refine ⟨sj, hsj, ?_⟩
        rw [h3, List.getElem?_append_left (by omega)]
        exact hget

/-- When `m` passes come through, so do the first `k` of them, for `k ≤ m`. -/
lemma newton_iterate_prefix (c : NonlinCalls) (m k : Nat) (st s : NewtonState)
    (h : newton_iterate c m st = Except.ok s) (hk : k ≤ m) :
    ∃ sk, newton_iterate c k st = Except.ok sk := by
  induction m generalizing s with
  | zero =>
    have : k = 0 := by omega
    subst this
    exact ⟨s, h⟩
  | succ m ih =>
    by_cases hkm : k = m + 1
    · subst hkm
      exact ⟨s, h⟩
    · simp only [newton_iterate] at h
      cases hm : newton_iterate c m st with
      | error e => rw [hm] at h; cases h
      | ok sm => exact ih sm hm (by omega)

/-- Every pass that comes through keeps, for the test, the residual norm of the
iterate it started from. -/
lemma newton_iterate_residual (c : NonlinCalls) (m k : Nat) (st s : NewtonState)
    (h : newton_iterate c m st = Except.ok s) (hk : k < m) :
    ∃ sk sk1, newton_iterate c k st = Except.ok sk ∧ newton_iteration c sk = Except.ok sk1 ∧
      newton_iterate c (k + 1) st = Except.ok sk1 ∧ sk1.res_l2_norm = residual_norm c sk := by
  obtain ⟨sk1, hsk1⟩ := newton_iterate_prefix c m (k + 1) st s h (by omega)
  have h' := hsk1
  simp only [newton_iterate] at h'
  cases hk' : newton_iterate c k st with
  | error e => rw [hk'] at h'; cases h'
  | ok sk =>
    rw [hk'] at h'
    simp only at h'
    exact ⟨sk, sk1, rfl, h', hsk1, (newton_iteration_spec c sk sk1 h').2.2.2.1⟩

/-- A run of the loop that returns has made `n + 1` passes: the loop condition
failed after the last one and held after each of the earlier ones. -/
lemma newton_loop_returned (c : NonlinCalls) (tol : ℚ) (max : Int) (fuel : Nat)
    (st st' : NewtonState) (h : newton_loop c tol max fuel st = Run.returned st') :
    ∃ n, n < fuel ∧ newton_iterate c (n + 1) st = Except.ok st' ∧
      ¬ (st'.res_l2_norm > tol ∧ st'.it ≤ max) ∧
      ∀ k, k < n → ∃ sk, newton_iterate c (k + 1) st = Except.ok sk ∧
        (sk.res_l2_norm > tol ∧ sk.it ≤ max) := by
  induction fuel generalizing st with
  | zero => simp [newton_loop] at h
  | succ fuel ih =>
    unfold newton_loop at h
    cases hit : newton_iteration c st with
    | error e => rw [hit] at h; cases h
    | ok s1 =>
      rw [hit] at h
      simp only at h
      by_cases hcond : s1.res_l2_norm > tol ∧ s1.it ≤ max
      · rw [if_pos hcond] at h
        obtain ⟨n, hn, hiter, hstop, hall⟩ := ih s1 h
        refine ⟨n + 1, by omega, ?_, hstop, ?_⟩
        · rw [newton_iterate_succ, hit]
          exact hiter
        · intro k hk
          cases k with
          | zero =>
            refine ⟨s1, ?_, hcond⟩
            simp [newton_iterate, hit]
          | succ k =>
            obtain ⟨sk, hsk, hck⟩ := hall k (by omega)
            refine ⟨sk, ?_, hck⟩
            rw [newton_iterate_succ, hit]
            exact hsk
      · rw [if_neg hcond] at h
        cases h
        refine ⟨0, by omega, ?_, hcond, by intro k hk; omega⟩
        simp [newton_iterate, hit]

/-- A system that is ready makes the loop return within `newton_max_iter - it + 1`
passes when it is entered with `it ≤ newton_max_iter < INT_MAX`: the counter `it`
does not overflow, it has gone up by the number of calls of `solve`, and it is at
most `newton_max_iter + 1` at the end. -/
lemma newton_loop_returns (c : NonlinCalls) (tol : ℚ) (max : Int) (fuel : Nat)
    (st : NewtonState) (hready : newton_ready c st.sys) (hlo : -2147483648 ≤ st.it)
    (hle : st.it ≤ max) (hint : max < INT_MAX) (hfuel : (max - st.it).toNat + 1 ≤ fuel) :
    ∃ st', newton_loop c tol max fuel st = Run.returned st' ∧
      st.it < st'.it ∧ st'.it ≤ max + 1 ∧
      st'.it - st.it = (st'.solved : Int) - (st.solved : Int) := by
  induction fuel generalizing st with
  | zero => omega
  | succ fuel ih =>
    obtain ⟨s1, hs1, hready1⟩ := newton_iteration_ok c st hready
    obtain ⟨hit1, hsolved1, _⟩ := newton_iteration_spec c st s1 hs1
    rw [wrap_int_of_range _ (by omega) (by omega)] at hit1
    unfold newton_loop
    rw [hs1]
    simp only
    by_cases hcond : s1.res_l2_norm > tol ∧ s1.it ≤ max
    · rw [if_pos hcond]
      have h2 := hcond.2
      obtain ⟨st', hst', h3, h4, h5⟩ := ih s1 hready1 (by omega) h2 (by omega)
      refine ⟨st', hst', by omega, h4, ?_⟩
      rw [hsolved1] at h5
      push_cast at h5
      omega
    · rw [if_neg hcond]
      refine ⟨s1, rfl, by omega, by omega, ?_⟩
      rw [hsolved1]
      push_cast
      omega

lemma solve_newton_returned (c : NonlinCalls) (fuel : Nat) (sys : NonlinSystem) (u : Solution)
    (tol : ℚ) (max : Int) (flag : Bool) (st : NewtonState)
    (h : sys.solve_newton c fuel u tol max = Run.returned (flag, st)) :
    newton_loop c tol max fuel (newton_start sys u) = Run.returned st ∧
      (flag = true ↔ st.it ≤ max) := by
  unfold NonlinSystem.solve_newton at h
  cases hl : newton_loop c tol max fuel (newton_start sys u) with
  | returned s =>
    rw [hl] at h
    simp only at h
    by_cases hit : s.it ≤ max
    · rw [if_pos hit] at h
      cases h
      exact ⟨rfl, by simp [hit]⟩
    · rw [if_neg hit] at h
      cases h
      exact ⟨rfl, by simp [hit]⟩
  | fatal e => rw [hl] at h; cases h
  | out_of_fuel => rw [hl] at h; cases h

/-- The run of `solve_newton` on a system that is ready, with
`1 ≤ newton_max_iter < INT_MAX` and `newton_max_iter` passes of fuel: it returns
after `n` passes, `1 ≤ n ≤ newton_max_iter`, and it returns `true` exactly when
`n < newton_max_iter`. -/
lemma solve_newton_returns (c : NonlinCalls) (sys : NonlinSystem) (u : Solution) (tol : ℚ)
    (max : Int) (hmax : 1 ≤ max) (hint : max < INT_MAX) (hready : newton_ready c sys)
    (fuel : Nat) (hfuel : max.toNat ≤ fuel) :
    ∃ flag st, sys.solve_newton c fuel u tol max = Run.returned (flag, st) ∧
      1 ≤ st.solved ∧ (st.solved : Int) ≤ max ∧ st.assembled.length = st.solved ∧
      st.it = st.solved + 1 ∧ (flag = true ↔ (st.solved : Int) < max) := by
  obtain ⟨st, hst, hlt, hup, hdiff⟩ := newton_loop_returns c tol max fuel (newton_start sys u)
    hready (by simp [newton_start]) (by simpa [newton_start] using hmax) hint
    (by simp only [newton_start]; omega)
  obtain ⟨n, _, hiter, _, _⟩ := newton_loop_returned c tol max fuel _ st hst
  obtain ⟨_, hsolved, hlen, _⟩ := newton_iterate_spec c (n + 1) _ st hiter
  simp only [newton_start, List.length_nil, Nat.zero_add] at hsolved hlen hlt hdiff
  have hit : st.it = st.solved + 1 := by
    push_cast at hdiff
    omega
  have hbound : (st.solved : Int) ≤ max := by omega
  have hflag : (st.it ≤ max) ↔ ((st.solved : Int) < max) := by
    rw [hit]; omega
  unfold NonlinSystem.solve_newton
  rw [hst]
  simp only
  by_cases hle : st.it ≤ max
  · rw [if_pos hle]
    exact ⟨true, st, rfl, by omega, hbound, by omega, hit, by simpa using hflag.1 hle⟩
  · rw [if_neg hle]
    refine ⟨false, st, rfl, by omega, hbound, by omega, hit, ?_⟩
    constructor
    · intro h; cases h
    · intro h; exact absurd (hflag.2 h) hle

lemma newton_sample_ready (v : ℚ) : newton_ready newton_sample_calls (newton_sample_system v) := by
  refine ⟨rfl, ?_, ?_, ?_⟩
  · simp [newton_sample_system, NonlinSystem.init_nonlin]
  · simp [newton_sample_system, NonlinSystem.init_nonlin]
  · intro l u
    rfl

/-! ### C14: the value `solve_newton` returns -/

/-- C14 fails on the code: with `newton_max_iter = 1` the sample system, started
at the solution (residual zero), makes one Newton iteration, leaves the loop with
the residual norm 0 (at most `newton_tol = 1/10000`: converged) and yet returns
`false`, because `it` is already 2 when it is compared with `newton_max_iter`. -/
theorem solve_newton_false_when_converged :
    ∃ st, (newton_sample_system 3).solve_newton newton_sample_calls 1 (constant_solution 3)
        (1 / 10000) 1 = Run.returned (false, st) ∧
      st.solved = 1 ∧ st.res_l2_norm ≤ 1 / 10000 := by
  obtain ⟨flag, st, h, h1, h2, _, _, hflag⟩ :=
    solve_newton_returns newton_sample_calls (newton_sample_system 3) (constant_solution 3)
      (1 / 10000) 1 (le_refl 1) (by decide) (newton_sample_ready 3) 1 (by simp)
  have hsolved : st.solved = 1 := by omega
  have hfalse : flag = false := by
    cases flag with
    | false => rfl
    | true =>
      have := hflag.1 rfl
      omega
  subst hfalse
  refine ⟨st, h, hsolved, ?_⟩
  obtain ⟨hloop, _⟩ := solve_newton_returned _ _ _ _ _ _ _ _ h
  obtain ⟨n, hn, hiter, _, _⟩ := newton_loop_returned _ _ _ _ _ _ hloop
  have hn0 : n = 0 := by omega
  subst hn0
  simp only [newton_iterate] at hiter
  have hres := (newton_iteration_spec _ _ _ hiter).2.2.2.1
  rw [hres]
  simp [residual_norm, accumulate_norms_l2, newton_sample_calls, newton_start,
    constant_solution]

/-! ### C15: the number of Newton iterations -/

/-- C15, as the code has it: for every `newton_max_iter` with
`1 ≤ newton_max_iter < INT_MAX`, on a system set up so that `solve` passes its
tests, and whatever residuals `LinSystem::assemble` produces, `solve_newton` (given
`newton_max_iter` passes of fuel) returns after at least one and at most
`newton_max_iter` iterations, each of one `assemble` and one `solve`; the counter
`it` is the number of iterations plus one and has not overflowed. -/
theorem solve_newton_iterations (c : NonlinCalls) (sys : NonlinSystem) (u : Solution) (tol : ℚ)
    (max : Int) (hmax : 1 ≤ max) (hint : max < INT_MAX) (hready : newton_ready c sys) :
    ∃ flag st, sys.solve_newton c max.toNat u tol max = Run.returned (flag, st) ∧
      1 ≤ st.solved ∧ (st.solved : Int) ≤ max ∧ st.assembled.length = st.solved ∧
      st.it = st.solved + 1 ∧ st.it ≤ INT_MAX := by
  obtain ⟨flag, st, h, h1, h2, h3, h4, _⟩ :=
    solve_newton_returns c sys u tol max hmax hint hready max.toNat (le_refl _)
  exact ⟨flag, st, h, h1, h2, h3, h4, by omega⟩

/-- Witness of C15: the sample system is set up for Newton's loop; with
`NEWTON_MAX_ITER = 100` and the tolerance `1/10000` of `tutorial/15` the loop
started from the constant 5 returns after between 1 and 100 iterations. -/
theorem solve_newton_iterations_witness :
    (1 : Int) ≤ 100 ∧ (100 : Int) < INT_MAX ∧
      newton_ready newton_sample_calls (newton_sample_system 5) ∧
      ∃ flag st, (newton_sample_system 5).solve_newton newton_sample_calls (100 : Int).toNat
          (constant_solution 5) (1 / 10000) 100 = Run.returned (flag, st) ∧
        1 ≤ st.solved ∧ (st.solved : Int) ≤ 100 ∧ st.assembled.length = st.solved ∧
        st.it = st.solved + 1 ∧ st.it ≤ INT_MAX :=
  ⟨by norm_num, by decide, newton_sample_ready 5,
    solve_newton_iterations newton_sample_calls (newton_sample_system 5) (constant_solution 5)
      (1 / 10000) 100 (by norm_num) (by decide) (newton_sample_ready 5)⟩

/-- With the sample calls whose residual is 1 in every component, a system of two
degrees of freedom that is ready never leaves the loop when `newton_max_iter` is
`INT_MAX`: the norm stays above the tolerance and no `int` is above `INT_MAX`. -/
lemma newton_loop_no_return (fuel : Nat) (st : NewtonState)
    (hready : newton_ready newton_calls_no_progress st.sys) (hndof : st.sys.ndof = 2) :
    newton_loop newton_calls_no_progress (1 / 10000) INT_MAX fuel st = Run.out_of_fuel := by
  induction fuel generalizing st with
  | zero => rfl
  | succ fuel ih =>
    obtain ⟨s1, hs1, hready1⟩ := newton_iteration_ok newton_calls_no_progress st hready
    obtain ⟨hit1, _, _, hres, _, _, _, hndof1, _⟩ :=
      newton_iteration_spec newton_calls_no_progress st s1 hs1
    have hnorm : s1.res_l2_norm = 1 := by
      rw [hres]
      simp [residual_norm, accumulate_norms_l2, newton_calls_no_progress, newton_sample_calls,
        hndof, sqr, Finset.sum_range_succ]
      norm_num [Nat.sqrt]
    have hitle : s1.it ≤ INT_MAX := by
      rw [hit1]
      exact (wrap_int_range _).2
    unfold newton_loop
    rw [hs1]
    simp only
    rw [if_pos ⟨by rw [hnorm]; norm_num, hitle⟩]
    exact ih s1 hready1 (by rw [hndof1, hndof])

/-- C15 as stated fails at `newton_max_iter = INT_MAX`: the sample system is
ready, the residual of the sample calls stays at norm 1 above the tolerance
`1/10000`, and the test `it <= newton_max_iter` cannot fail for an `int`, so
`solve_newton` returns after no number of passes, `INT_MAX` of them included. -/
theorem solve_newton_unbounded_at_int_max :
    (1 : Int) ≤ INT_MAX ∧
      newton_ready newton_calls_no_progress (newton_sample_system 5) ∧
      ¬ ∃ fuel r, (newton_sample_system 5).solve_newton newton_calls_no_progress fuel
          (constant_solution 5) (1 / 10000) INT_MAX = Run.returned r := by
  have hready : newton_ready newton_calls_no_progress (newton_sample_system 5) := by
    refine ⟨rfl, ?_, ?_, ?_⟩
    · simp [newton_sample_system, NonlinSystem.init_nonlin]
    · simp [newton_sample_system, NonlinSystem.init_nonlin]
    · intro l u
      rfl
  refine ⟨by decide, hready, ?_⟩
  rintro ⟨fuel, r, h⟩
  unfold NonlinSystem.solve_newton at h
  rw [newton_loop_no_return fuel (newton_start (newton_sample_system 5) (constant_solution 5))
    hready rfl] at h
  cases h

/-! ### C20: which residual is compared with the tolerance -/

/-- C20: when `solve_newton` returns after `n + 1` iterations, the norm it compared
with `newton_tol` after the last iteration is the one `assemble()` computed before
that iteration's update: the residual norm of iterate `n`, the state `s` before
the iteration; and so it is in every iteration `k + 1 ≤ n + 1`, whose norm is the
residual norm of iterate `k`.  So the loop has stopped with a norm within the tolerance exactly
when the residual of iterate `n` is at most `newton_tol`, the residuals of the
iterates before it were above `newton_tol`, the solution handed back in `u_prev`
is iterate `n + 1` (the vector `Vec` after the last update), and `assemble()` was
called `n + 1` times, on the iterates `0, ..., n`: never on the one handed back. -/
theorem newton_residual_of_previous_iterate (c : NonlinCalls) (fuel : Nat) (sys : NonlinSystem)
    (u : Solution) (tol : ℚ) (max : Int) (flag : Bool) (st : NewtonState)
    (h : sys.solve_newton c fuel u tol max = Run.returned (flag, st)) :
    ∃ n s, st.solved = n + 1 ∧
      newton_iterate c n (newton_start sys u) = Except.ok s ∧
      newton_iteration c s = Except.ok st ∧
      st.res_l2_norm = residual_norm c s ∧
      (st.res_l2_norm ≤ tol ↔ residual_norm c s ≤ tol) ∧
      (∀ k, k < n + 1 → ∃ sk sk1, newton_iterate c k (newton_start sys u) = Except.ok sk ∧
        newton_iteration c sk = Except.ok sk1 ∧ sk1.res_l2_norm = residual_norm c sk) ∧
      (∀ k, k < n → ∃ sk, newton_iterate c k (newton_start sys u) = Except.ok sk ∧
        tol < residual_norm c sk) ∧
      st.sys.Vec = some st.u_prev.coef ∧
      st.assembled.length = n + 1 ∧
      (∀ j, j < n + 1 → ∃ sj, newton_iterate c j (newton_start sys u) = Except.ok sj ∧
        st.assembled[j]? = some sj.u_prev) := by
  obtain ⟨hloop, _⟩ := solve_newton_returned c fuel sys u tol max flag st h
  obtain ⟨n, _, hiter, _, hall⟩ := newton_loop_returned c tol max fuel _ st hloop
  obtain ⟨_, hsolved, hlen, hlog⟩ := newton_iterate_spec c (n + 1) _ st hiter
  simp only [newton_start, List.length_nil, Nat.zero_add] at hsolved hlen hlog
  have hiter' := hiter
  simp only [newton_iterate] at hiter'
  cases hn : newton_iterate c n (newton_start sys u) with
  | error e => rw [hn] at hiter'; cases hiter'
  | ok s =>
    rw [hn] at hiter'
    simp only at hiter'
    obtain ⟨_, _, _, hres, hvec, _⟩ := newton_iteration_spec c s st hiter'
    refine ⟨n, s, hsolved, hn, hiter', hres, by rw [hres], ?_, ?_, hvec, hlen, ?_⟩
    · intro k hk
      obtain ⟨sk, sk1, h1, h2, _, h4⟩ :=
        newton_iterate_residual c (n + 1) k (newton_start sys u) st hiter hk
      exact ⟨sk, sk1, h1, h2, h4⟩
    · intro k hk
      obtain ⟨sk1, hsk1, hck⟩ := hall k hk
      simp only [newton_iterate] at hsk1
      cases hk' : newton_iterate c k (newton_start sys u) with
      | error e => rw [hk'] at hsk1; cases hsk1
      | ok sk =>
        rw [hk'] at hsk1
        simp only at hsk1
        have := (newton_iteration_spec c sk sk1 hsk1).2.2.2.1
        refine ⟨sk, rfl, ?_⟩
        rw [← this]
        exact hck.1
    · intro j hj
      exact hlog j hj

/-- Witness of C20: the sample run started from the constant 5 returns, so the
theorem applies to the state it returns. -/
theorem newton_residual_of_previous_iterate_witness :
    ∃ flag st, (newton_sample_system 5).solve_newton newton_sample_calls 100
        (constant_solution 5) (1 / 10000) 100 = Run.returned (flag, st) ∧
      ∃ n s, st.solved = n + 1 ∧
        newton_iterate newton_sample_calls n
          (newton_start (newton_sample_system 5) (constant_solution 5)) = Except.ok s ∧
        newton_iteration newton_sample_calls s = Except.ok st ∧
        st.res_l2_norm = residual_norm newton_sample_calls s ∧
        (st.res_l2_norm ≤ 1 / 10000 ↔ residual_norm newton_sample_calls s ≤ 1 / 10000) ∧
        (∀ k, k < n + 1 → ∃ sk sk1, newton_iterate newton_sample_calls k
            (newton_start (newton_sample_system 5) (constant_solution 5)) = Except.ok sk ∧
          newton_iteration newton_sample_calls sk = Except.ok sk1 ∧
          sk1.res_l2_norm = residual_norm newton_sample_calls sk) ∧
        (∀ k, k < n → ∃ sk, newton_iterate newton_sample_calls k
            (newton_start (newton_sample_system 5) (constant_solution 5)) = Except.ok sk ∧
          1 / 10000 < residual_norm newton_sample_calls sk) ∧
        st.sys.Vec = some st.u_prev.coef ∧
        st.assembled.length = n + 1 ∧
        (∀ j, j < n + 1 → ∃ sj, newton_iterate newton_sample_calls j
            (newton_start (newton_sample_system 5) (constant_solution 5)) = Except.ok sj ∧
          st.assembled[j]? = some sj.u_prev) := by
  obtain ⟨flag, st, h, _⟩ :=
    solve_newton_returns newton_sample_calls (newton_sample_system 5) (constant_solution 5)
      (1 / 10000) 100 (by norm_num) (by decide) (newton_sample_ready 5) 100 (by simp)
  exact ⟨flag, st, h,
    newton_residual_of_previous_iterate newton_sample_calls 100 (newton_sample_system 5)
      (constant_solution 5) (1 / 10000) 100 flag st h⟩

end Newton

/-! ## The constructors of `NonlinSystem` -/

section Constructors

end Constructors

/-! ## tutorial/15-newton-elliptic-adapt -/

section NewtonAdapt

variable {σ : Type}

lemma stops_of_no_failed (events : List DriverEvent) (result : Run σ)
    (h : no_failed_newton events) : stops_at_failed_newton events result := by
  intro pre e post heq hfail
  have : e ∈ events := by rw [heq]; simp
  rw [h e this] at hfail
  cases hfail

lemma stops_append (ev1 ev2 : List DriverEvent) (result : Run σ) (h1 : no_failed_newton ev1)
    (h2 : stops_at_failed_newton ev2 result) : stops_at_failed_newton (ev1 ++ ev2) result := by
  induction ev1 with
  | nil => simpa using h2
  | cons x xs ih =>
    have hx : x.failed_newton = false := h1 x (List.mem_cons_self _ _)
    have hxs : no_failed_newton xs := fun e he => h1 e (List.mem_cons_of_mem _ he)
    intro pre e post heq hfail
    cases pre with
    | nil =>
      simp only [List.nil_append, List.cons_append, List.cons.injEq] at heq
      rw [← heq.1, hx] at hfail
      cases hfail
    | cons p pre' =>
      simp only [List.cons_append, List.cons.injEq] at heq
      exact ih hxs pre' e post heq.2 hfail

lemma stops_clean_then_failed (ev : List DriverEvent) (x : DriverEvent)
    (h : no_failed_newton ev) :
    stops_at_failed_newton (σ := σ) (ev ++ [x]) (Run.fatal Fatal.newton_not_converged) := by
  apply stops_append ev [x] _ h
  intro pre e post heq _
  cases pre with
  | nil =>
    simp only [List.nil_append, List.cons.injEq] at heq
    exact ⟨heq.2.symm, rfl⟩
  | cons p pre' =>
    simp only [List.cons_append, List.cons.injEq] at heq
    have := congrArg List.length heq.2
    simp at this
    omega

/-- A pass of the body either comes through without a failed Newton solve, or ends
in the fatal error right after the failed solve. -/
lemma newton_adapt_step_cases (c : NewtonAdaptCalls σ) (k : NewtonAdaptConfig) (as : Nat)
    (s : σ) :
    (no_failed_newton (newton_adapt_step c k as s).1 ∧
        ∃ r, (newton_adapt_step c k as s).2 = Except.ok r) ∨
      (∃ ev x, (newton_adapt_step c k as s).1 = ev ++ [x] ∧ no_failed_newton ev ∧
        (newton_adapt_step c k as s).2 = Except.error Fatal.newton_not_converged) := by
  unfold newton_adapt_step
  simp only
  generalize (if as = 1 then c.project_coarse_on_fine (c.prepare_fine s)
    else c.project_fine_on_fine (c.prepare_fine s)) = s1
  split
  · right
    exact ⟨[DriverEvent.step as], DriverEvent.newton_fine false, rfl,
      by intro e he; simp at he; subst he; rfl, rfl⟩
  · split
    · left
      exact ⟨by intro e he; simp at he; rcases he with h | h | h <;> subst h <;> rfl, _, rfl⟩
    · split
      · left
        exact ⟨by intro e he; simp at he; rcases he with h | h | h | h <;> subst h <;> rfl,
          _, rfl⟩
      · split
        · split
          · right
            exact ⟨[DriverEvent.step as, DriverEvent.newton_fine true,
                DriverEvent.error_estimate, DriverEvent.adaptation],
              DriverEvent.newton_coarse false, rfl,
              by intro e he; simp at he; rcases he with h | h | h | h <;> subst h <;> rfl, rfl⟩
          · left
            exact ⟨by
              intro e he; simp at he
              rcases he with h | h | h | h | h <;> subst h <;> rfl, _, rfl⟩
        · left
          exact ⟨by intro e he; simp at he; rcases he with h | h | h | h <;> subst h <;> rfl,
            _, rfl⟩

lemma newton_adapt_loop_stops (c : NewtonAdaptCalls σ) (k : NewtonAdaptConfig) (fuel as : Nat)
    (s : σ) :
    stops_at_failed_newton (newton_adapt_loop c k fuel as s).1
      (newton_adapt_loop c k fuel as s).2 := by
  induction fuel generalizing as s with
  | zero =>
    exact stops_of_no_failed _ _ (by intro e he; simp [newton_adapt_loop] at he)
  | succ fuel ih =>
    unfold newton_adapt_loop
    rcases newton_adapt_step_cases c k as s with ⟨hclean, r, hr⟩ | ⟨ev, x, hev, hclean, hr⟩
    · cases hstep : newton_adapt_step c k as s with
      | mk events res =>
        rw [hstep] at hclean hr
        simp only at hclean hr
        subst hr
        obtain ⟨s', done⟩ := r
        simp only
        cases done with
        | true => simpa using stops_of_no_failed events _ hclean
        | false =>
          simp only [Bool.false_eq_true, if_false]
          exact stops_append events _ _ hclean (ih (as + 1) s')
    · cases hstep : newton_adapt_step c k as s with
      | mk events res =>
        rw [hstep] at hev hr
        simp only at hev hr
        subst hr
        subst hev
        simp only
        exact stops_clean_then_failed ev x hclean

/-! ### C13: a Newton solve that fails -/

/-- C13: in a run of the driver of `tutorial/15-newton-elliptic-adapt`, a Newton
solve for which `solve_newton` returned `false` (on the coarse or on the fine
mesh) is the last thing the driver does: no error estimate, adaptation,
adaptivity step or other event follows it, and the run ends in the fatal error
"Newton's method did not converge". -/
theorem newton_failure_is_fatal (c : NewtonAdaptCalls σ) (k : NewtonAdaptConfig) (fuel : Nat)
    (s : σ) (pre : List DriverEvent) (e : DriverEvent) (post : List DriverEvent)
    (htrace : (newton_adapt_main c k fuel s).1 = pre ++ e :: post)
    (hfailed : e.failed_newton = true) :
    post = [] ∧ (newton_adapt_main c k fuel s).2 = Run.fatal Fatal.newton_not_converged := by
  have key : stops_at_failed_newton (newton_adapt_main c k fuel s).1
      (newton_adapt_main c k fuel s).2 := by
    unfold newton_adapt_main
    simp only
    split
    · exact stops_clean_then_failed [] _ (by intro e he; simp at he)
    · exact stops_append [DriverEvent.newton_coarse true] _ _
        (by intro e he; simp at he; subst he; rfl) (newton_adapt_loop_stops c k fuel 1 _)
  exact key pre e post htrace hfailed

/-- Witness of C13: in the sample run Newton's method fails in the fine mesh solve
of the second adaptivity step; that solve is the last event and the run is fatal. -/
theorem newton_failure_is_fatal_witness :
    (newton_adapt_main newton_adapt_sample newton_adapt_config 5 0).1 =
        [DriverEvent.newton_coarse true, DriverEvent.step 1, DriverEvent.newton_fine true,
          DriverEvent.error_estimate, DriverEvent.adaptation, DriverEvent.step 2] ++
          DriverEvent.newton_fine false :: [] ∧
      (DriverEvent.newton_fine false).failed_newton = true ∧
      ([] : List DriverEvent) = [] ∧
      (newton_adapt_main newton_adapt_sample newton_adapt_config 5 0).2 =
        Run.fatal Fatal.newton_not_converged :=
  have htrace : (newton_adapt_main newton_adapt_sample newton_adapt_config 5 0).1 =
      [DriverEvent.newton_coarse true, DriverEvent.step 1, DriverEvent.newton_fine true,
        DriverEvent.error_estimate, DriverEvent.adaptation, DriverEvent.step 2] ++
        DriverEvent.newton_fine false :: [] := by
    simp [newton_adapt_main, newton_adapt_loop, newton_adapt_step, newton_adapt_sample,
      newton_adapt_config, error]
  ⟨htrace, rfl,
    newton_failure_is_fatal newton_adapt_sample newton_adapt_config 5 0 _ _ _ htrace rfl⟩

end NewtonAdapt

/-! ## The enumeration of the degrees of freedom -/

section Dofs

lemma contiguous_append (first : Nat) (T : List DofBlock) (next : Nat) (o : DofOwner) (c : Nat)
    (h : contiguous first T next) :
    contiguous first (T ++ [{ owner := o, first := next, count := c }]) (next + c) := by
  induction T generalizing first with
  | nil =>
    simp only [contiguous] at h
    subst h
    simp [contiguous]
  | cons b rest ih =>
    simp only [contiguous, List.cons_append] at h ⊢
    exact ⟨h.1, ih _ h.2⟩

lemma contiguous_le (first : Nat) (T : List DofBlock) (next : Nat)
    (h : contiguous first T next) : first ≤ next := by
  induction T generalizing first with
  | nil => simp only [contiguous] at h; omega
  | cons b rest ih =>
    simp only [contiguous] at h
    have := ih _ h.2
    omega

lemma contiguous_sum (first : Nat) (T : List DofBlock) (next : Nat)
    (h : contiguous first T next) : next = first + (T.map DofBlock.count).sum := by
  induction T generalizing first with
  | nil => simpa [contiguous] using h
  | cons b rest ih =>
    simp only [contiguous] at h
    have := ih _ h.2
    simp only [List.map_cons, List.sum_cons]
    omega

/-- Every block of a contiguous table lies between `first` and `next`. -/
lemma contiguous_within (first : Nat) (T : List DofBlock) (next : Nat)
    (h : contiguous first T next) (b : DofBlock) (hb : b ∈ T) :
    first ≤ b.first ∧ b.first + b.count ≤ next := by
  induction T generalizing first with
  | nil => simp at hb
  | cons b0 rest ih =>
    simp only [contiguous] at h
    rcases List.mem_cons.1 hb with hb | hb
    · subst hb
      have := contiguous_le _ _ _ h.2
      omega
    · have := ih _ h.2 hb
      omega

/-- Every index between `first` and `next` lies in a block of a contiguous table. -/
lemma contiguous_cover (first : Nat) (T : List DofBlock) (next : Nat)
    (h : contiguous first T next) (i : Nat) (h1 : first ≤ i) (h2 : i < next) :
    ∃ b ∈ T, b.first ≤ i ∧ i < b.first + b.count := by
  induction T generalizing first with
  | nil => simp only [contiguous] at h; omega
  | cons b0 rest ih =>
    simp only [contiguous] at h
    by_cases hi : i < first + b0.count
    · exact ⟨b0, List.mem_cons_self _ _, by omega, by omega⟩
    · obtain ⟨b, hb, hb1, hb2⟩ := ih _ h.2 (by omega)
      exact ⟨b, List.mem_cons_of_mem _ hb, hb1, hb2⟩

/-- Two blocks of a contiguous table that hold the same index are the same block. -/
lemma contiguous_disjoint (first : Nat) (T : List DofBlock) (next : Nat)
    (h : contiguous first T next) (b b' : DofBlock) (hb : b ∈ T) (hb' : b' ∈ T) (i : Nat)
    (h1 : b.first ≤ i ∧ i < b.first + b.count) (h2 : b'.first ≤ i ∧ i < b'.first + b'.count) :
    b = b' := by
  induction T generalizing first with
  | nil => simp at hb
  | cons b0 rest ih =>
    simp only [contiguous] at h
    rcases List.mem_cons.1 hb with e1 | m1
    · rcases List.mem_cons.1 hb' with e2 | m2
      · rw [e1, e2]
      · subst e1
        have := contiguous_within _ _ _ h.2 b' m2
        omega
    · rcases List.mem_cons.1 hb' with e2 | m2
      · subst e2
        have := contiguous_within _ _ _ h.2 b m1
        omega
      · exact ih _ h.2 m1 m2

lemma any_owner_iff (T : List DofBlock) (o : DofOwner) :
    T.any (fun b => decide (b.owner = o)) = true ↔ o ∈ T.map DofBlock.owner := by
  simp only [List.any_eq_true, decide_eq_true_eq, List.mem_map]

/-- The enumeration pass keeps the table contiguous, gives no owner two blocks,
sizes every block by its owner, and numbers exactly the owners it meets. -/
lemma enumerate_spec (size : DofOwner → Nat) (L : List DofOwner) (first : Nat)
    (T : List DofBlock) (next : Nat) (hc : contiguous first T next)
    (hn : (T.map DofBlock.owner).Nodup) (hs : ∀ b ∈ T, b.count = size b.owner) :
    contiguous first (enumerate size L T next).1 (enumerate size L T next).2 ∧
      ((enumerate size L T next).1.map DofBlock.owner).Nodup ∧
      (∀ b ∈ (enumerate size L T next).1, b.count = size b.owner) ∧
      ∀ o, o ∈ (enumerate size L T next).1.map DofBlock.owner ↔
        (o ∈ T.map DofBlock.owner ∨ o ∈ L) := by
  induction L generalizing T next with
  | nil => exact ⟨hc, hn, hs, by simp [enumerate]⟩
  | cons o rest ih =>
    by_cases hany : T.any (fun b => decide (b.owner = o)) = true
    · have hstep : enumerate size (o :: rest) T next = enumerate size rest T next := by
        simp only [enumerate, hany, if_true]
      rw [hstep]
      obtain ⟨h1, h2, h3, h4⟩ := ih T next hc hn hs
      refine ⟨h1, h2, h3, ?_⟩
      intro o'
      rw [h4 o']
      have ho : o ∈ T.map DofBlock.owner := (any_owner_iff T o).1 hany
      constructor
      · rintro (h | h)
        · exact Or.inl h
        · exact Or.inr (List.mem_cons_of_mem _ h)
      · rintro (h | h)
        · exact Or.inl h
        · rcases List.mem_cons.1 h with h | h
          · subst h; exact Or.inl ho
          · exact Or.inr h
    · have hstep : enumerate size (o :: rest) T next =
          enumerate size rest (T ++ [{ owner := o, first := next, count := size o }])
            (next + size o) := by
        simp only [enumerate, hany, Bool.false_eq_true, if_false]
      rw [hstep]
      have ho : o ∉ T.map DofBlock.owner := fun h => hany ((any_owner_iff T o).2 h)
      have hn' : ((T ++ [({ owner := o, first := next, count := size o } : DofBlock)]).map
          DofBlock.owner).Nodup := by
        rw [List.map_append, List.nodup_append]
        refine ⟨hn, by simp, ?_⟩
        intro a ha hb
        simp only [List.map_cons, List.map_nil, List.mem_singleton] at hb
        subst hb
        exact ho ha
      have hs' : ∀ b ∈ T ++ [({ owner := o, first := next, count := size o } : DofBlock)],
          b.count = size b.owner := by
        intro b hb
        rcases List.mem_append.1 hb with hb | hb
        · exact hs b hb
        · simp only [List.mem_singleton] at hb
          subst hb
          rfl
      obtain ⟨h1, h2, h3, h4⟩ := ih _ _ (contiguous_append first T next o (size o) hc) hn' hs'
      refine ⟨h1, h2, h3, ?_⟩
      intro o'
      rw [h4 o']
      simp only [List.map_append, List.map_cons, List.map_nil, List.mem_append,
        List.mem_singleton, List.mem_cons]
      tauto

/-- In a table that gives no owner two blocks, looking an owner up finds its block. -/
lemma find_owner (T : List DofBlock) (hn : (T.map DofBlock.owner).Nodup) (b : DofBlock)
    (hb : b ∈ T) : T.find? (fun x => decide (x.owner = b.owner)) = some b := by
  induction T with
  | nil => simp at hb
  | cons b0 rest ih =>
    simp only [List.map_cons, List.nodup_cons] at hn
    rcases List.mem_cons.1 hb with hb | hb
    · subst hb
      simp [List.find?]
    · have hne : b0.owner ≠ b.owner := by
        intro heq
        apply hn.1
        rw [heq]
        exact List.mem_map.2 ⟨b, hb, rfl⟩
      simp only [List.find?, hne, decide_False]
      exact ih hn.2 hb

lemma dof_eq_some_iff (S : DofSpace) (o : DofOwner) (k i : Nat) :
    S.dof o k = some i ↔
      ∃ b, S.table.find? (fun x => decide (x.owner = o)) = some b ∧ k < b.count ∧
        b.first + k = i := by
  unfold DofSpace.dof
  cases h : S.table.find? (fun x => decide (x.owner = o)) with
  | none => simp
  | some b =>
    by_cases hk : k < b.count
    · simp [hk]
    · simp [hk]

/-! ### C11: the enumeration is a bijection -/

/-- C11: after `assign_dofs(first_dof)`, which returns `ndof`, every index in
`[first_dof, first_dof + ndof)` (in `[0, ndof)` for `assign_dofs(0)`) is the index
of exactly one basis function; no basis function has an index outside that range;
the numbered basis functions are those of the owners the enumeration walks, each
with as many functions as its kind and order give; `ndof` is the number of
numbered basis functions; and calling `assign_dofs` again on the space it left
returns the same `ndof`. -/
theorem assign_dofs_bijection (S : DofSpace) (first_dof : Nat) :
    (∀ i, first_dof ≤ i → i < first_dof + (S.assign_dofs first_dof).2 →
      ∃ o k, (S.assign_dofs first_dof).1.dof o k = some i ∧
        ∀ o' k', (S.assign_dofs first_dof).1.dof o' k' = some i → o' = o ∧ k' = k) ∧
    (∀ o k i, (S.assign_dofs first_dof).1.dof o k = some i →
      first_dof ≤ i ∧ i < first_dof + (S.assign_dofs first_dof).2) ∧
    (∀ o k, ((S.assign_dofs first_dof).1.dof o k).isSome = true ↔
      (o ∈ S.walk ∧ k < S.num_functions o)) ∧
    (S.assign_dofs first_dof).2 =
      (((S.assign_dofs first_dof).1.table).map DofBlock.count).sum ∧
    ((S.assign_dofs first_dof).1.assign_dofs first_dof).2 = (S.assign_dofs first_dof).2 := by
  obtain ⟨hc, hn, hs, hown⟩ := enumerate_spec S.num_functions S.walk first_dof [] first_dof
    (by simp [contiguous]) (by simp) (by simp)
  have hle := contiguous_le _ _ _ hc
  have htable : (S.assign_dofs first_dof).1.table =
      (enumerate S.num_functions S.walk [] first_dof).1 := rfl
  have hndof : first_dof + (S.assign_dofs first_dof).2 =
      (enumerate S.num_functions S.walk [] first_dof).2 := by
    simp only [DofSpace.assign_dofs]
    omega
  refine ⟨?_, ?_, ?_, ?_, rfl⟩
  · intro i h1 h2
    rw [hndof] at h2
    obtain ⟨b, hb, hb1, hb2⟩ := contiguous_cover _ _ _ hc i h1 h2
    refine ⟨b.owner, i - b.first, ?_, ?_⟩
    · rw [dof_eq_some_iff, htable]
      exact ⟨b, find_owner _ hn b hb, by omega, by omega⟩
    · intro o' k' h'
      rw [dof_eq_some_iff, htable] at h'
      obtain ⟨b', hfind, hk', hi'⟩ := h'
      have hb' : b' ∈ (enumerate S.num_functions S.walk [] first_dof).1 :=
        List.mem_of_find?_eq_some hfind
      have howner : b'.owner = o' := by
        have := List.find?_some hfind
        simpa using this
      have heq := contiguous_disjoint _ _ _ hc b' b hb' hb i (by omega) ⟨hb1, hb2⟩
      subst heq
      exact ⟨howner.symm, by omega⟩
  · intro o k i h
    rw [dof_eq_some_iff, htable] at h
    obtain ⟨b, hfind, hk, hi⟩ := h
    have hb := List.mem_of_find?_eq_some hfind
    have := contiguous_within _ _ _ hc b hb
    rw [hndof]
    omega
  · intro o k
    rw [Option.isSome_iff_exists]
    constructor
    · rintro ⟨i, hi⟩
      rw [dof_eq_some_iff, htable] at hi
      obtain ⟨b, hfind, hk, _⟩ := hi
      have hb := List.mem_of_find?_eq_some hfind
      have howner : b.owner = o := by
        have := List.find?_some hfind
        simpa using this
      have hmem : o ∈ (enumerate S.num_functions S.walk [] first_dof).1.map DofBlock.owner :=
        List.mem_map.2 ⟨b, hb, howner⟩
      rw [hown] at hmem
      have hcount := hs b hb
      rw [howner] at hcount
      rcases hmem with h | h
      · simp at h
      · exact ⟨h, by omega⟩
    · rintro ⟨hw, hk⟩
      have hmem : o ∈ (enumerate S.num_functions S.walk [] first_dof).1.map DofBlock.owner := by
        rw [hown]; exact Or.inr hw
      obtain ⟨b, hb, howner⟩ := List.mem_map.1 hmem
      refine ⟨b.first + k, ?_⟩
      rw [dof_eq_some_iff, htable]
      have hcount := hs b hb
      rw [howner] at hcount
      refine ⟨b, ?_, by omega, rfl⟩
      rw [← howner]
      exact find_owner _ hn b hb
  · have := contiguous_sum _ _ _ hc
    rw [htable]
    simp only [DofSpace.assign_dofs]
    omega

/-- The sample space of a quad and a triangle of order 2 gets 13 indices: 5
vertices, 6 edges with one function each, one bubble function per element; the
shared edge 11 is numbered once; and a second call returns 13 again. -/
lemma assign_dofs_sample :
    (dof_space_sample.assign_dofs 0).2 = 13 ∧
      (dof_space_sample.assign_dofs 0).1.dof (DofOwner.edge 11) 0 = some 6 ∧
      ((dof_space_sample.assign_dofs 0).1.assign_dofs 0).2 = 13 := by
  decide

end Dofs


/-! ## The Dirichlet lift of tutorial 15 (claim C21) -/

/-- The returned value of `dir_lift` is differentiable in each argument, and its
partial derivatives are one tenth of the values the function writes to `dx` and
`dy`: the derivative of `(x+10)(y+10)/100` in `x` is `(y+10)/100`, the code writes
`(y+10)/10`. -/
theorem dir_lift_hasDerivAt (x y : ℝ) :
    HasDerivAt (fun t : ℝ => (dir_lift t y).val) ((dir_lift x y).dx / 10) x ∧
    HasDerivAt (fun t : ℝ => (dir_lift x t).val) ((dir_lift x y).dy / 10) y := by
  constructor
  · have h := (((hasDerivAt_id x).add_const 10).mul_const (y + 10)).div_const 100
    convert h using 1
    simp only [dir_lift]; ring
  · have h := (((hasDerivAt_id y).add_const 10).const_mul (x + 10)).div_const 100
    convert h using 1
    simp only [dir_lift]; ring

/-- C21 fails on the code: at `x = 0`, `y = 0` the function `dir_lift` returns
`(0+10)(0+10)/100 = 1` and writes `dx = 1` and `dy = 1`, while both partial
derivatives of the returned value are `1/10` there; the divisor of `dx` and `dy`
is `10.` where the derivative of the returned expression has `100.`. -/
theorem dir_lift_dx_dy_ten_times_derivative :
    (dir_lift (0 : ℝ) 0).val = 1 ∧
    (dir_lift (0 : ℝ) 0).dx = 1 ∧ deriv (fun t : ℝ => (dir_lift t 0).val) 0 = 1 / 10 ∧
    (dir_lift (0 : ℝ) 0).dy = 1 ∧ deriv (fun t : ℝ => (dir_lift 0 t).val) 0 = 1 / 10 := by
  have h := dir_lift_hasDerivAt 0 0
  refine ⟨?_, ?_, ?_, ?_, ?_⟩
  · simp [dir_lift]; norm_num
  · simp [dir_lift]
  · rw [h.1.deriv]; simp [dir_lift]
  · simp [dir_lift]
  · rw [h.2.deriv]; simp [dir_lift]

/-! ## The exact solution of the Kellogg benchmark (claim C22) -/

/-- For every even function `cos`, the branches of `mu` agree at `M_PI/2` and at
`M_PI`, and the first branch at `0` agrees with the last branch at `2*M_PI`. -/
theorem kellogg_mu_agree {K : Type} [LinearOrderedField K] (cos : K → K)
    (hcos : ∀ t, cos (-t) = cos t) (M_PI : K) :
    Kellogg.mu_I cos M_PI (M_PI / 2) = Kellogg.mu_II cos M_PI (M_PI / 2) ∧
    Kellogg.mu_II cos M_PI M_PI = Kellogg.mu_III cos M_PI M_PI ∧
    Kellogg.mu_I cos M_PI 0 = Kellogg.mu_IV cos M_PI (2 * M_PI) := by
  refine ⟨?_, ?_, ?_⟩
  · unfold Kellogg.mu_I Kellogg.mu_II
    have h1 : (M_PI / 2 - M_PI + Kellogg.SIGMA) * Kellogg.TAU
        = -((M_PI / 2 - Kellogg.SIGMA) * Kellogg.TAU) := by ring
    have h2 : (M_PI / 2 - M_PI / 2 + Kellogg.RHO M_PI) * Kellogg.TAU
        = Kellogg.RHO M_PI * Kellogg.TAU := by ring
    rw [h1, h2, hcos, mul_comm]
  · unfold Kellogg.mu_II Kellogg.mu_III
    have h1 : (M_PI - M_PI + Kellogg.SIGMA) * Kellogg.TAU = Kellogg.SIGMA * Kellogg.TAU := by
      ring
    have h2 : (M_PI - M_PI + Kellogg.RHO M_PI) * Kellogg.TAU
        = Kellogg.RHO M_PI * Kellogg.TAU := by ring
    rw [h1, h2, mul_comm]
  · unfold Kellogg.mu_I Kellogg.mu_IV
    have h1 : (0 - M_PI / 2 + Kellogg.RHO M_PI) * Kellogg.TAU
        = -((M_PI / 2 - Kellogg.RHO M_PI) * Kellogg.TAU) := by ring
    have h2 : (2 * M_PI - 3 * M_PI / 2 - Kellogg.SIGMA) * Kellogg.TAU
        = (M_PI / 2 - Kellogg.SIGMA) * Kellogg.TAU := by ring
    rw [h1, h2, hcos, mul_comm]

/-- With the real cosine and `π`, the third branch of `mu` at `3π/2` is
`cos(SIGMA*TAU) * cos(3π/40)` and the last branch is `cos(π/40) * cos(SIGMA*TAU)`;
`cos(SIGMA*TAU)` is positive since `|SIGMA*TAU| < 3/2 < π/2`, and the cosine
decreases on `[0, π]`. -/
theorem kellogg_mu_III_lt_mu_IV :
    Kellogg.mu_III Real.cos Real.pi (3 * Real.pi / 2)
      < Kellogg.mu_IV Real.cos Real.pi (3 * Real.pi / 2) := by
  have hpi := Real.pi_gt_three
  have hpi4 := Real.pi_le_four
  unfold Kellogg.mu_III Kellogg.mu_IV
  have h1 : (3 * Real.pi / 2 - Real.pi + Kellogg.RHO Real.pi) * Kellogg.TAU
      = 3 * Real.pi / 40 := by
    unfold Kellogg.RHO Kellogg.TAU; norm_num; ring
  have h2 : (Real.pi / 2 - Kellogg.RHO Real.pi) * Kellogg.TAU = Real.pi / 40 := by
    unfold Kellogg.RHO Kellogg.TAU; norm_num; ring
  have h3 : (3 * Real.pi / 2 - 3 * Real.pi / 2 - Kellogg.SIGMA) * Kellogg.TAU
      = -((Kellogg.SIGMA : ℝ) * Kellogg.TAU) := by ring
  rw [h1, h2, h3, Real.cos_neg, mul_comm (Real.cos (Real.pi / 40))]
  have hs : 0 < Real.cos ((Kellogg.SIGMA : ℝ) * Kellogg.TAU) := by
    apply Real.cos_pos_of_mem_Ioo
    unfold Kellogg.SIGMA Kellogg.TAU
    constructor <;> norm_num <;> linarith
  have hc : Real.cos (3 * Real.pi / 40) < Real.cos (Real.pi / 40) := by
    apply Real.cos_lt_cos_of_nonneg_of_le_pi <;> linarith
  exact mul_lt_mul_of_pos_left hc hs

/-- The angular factor `mu` of `fn`, with the real cosine and `π`, is not
continuous at `3π/2`: its value there is that of the third branch, its limit from
the right is the value of the last branch. -/
theorem kellogg_mu_not_continuous :
    ¬ ContinuousAt (Kellogg.mu Real.cos Real.pi) (3 * Real.pi / 2) := by
  intro h
  have hpi := Real.pi_pos
  have hval : Kellogg.mu Real.cos Real.pi (3 * Real.pi / 2)
      = Kellogg.mu_III Real.cos Real.pi (3 * Real.pi / 2) := by
    unfold Kellogg.mu
    rw [if_neg (not_le.2 (by linarith)), if_neg (not_le.2 (by linarith)), if_pos (le_refl _)]
  have hright : ∀ t, 3 * Real.pi / 2 < t →
      Kellogg.mu Real.cos Real.pi t = Kellogg.mu_IV Real.cos Real.pi t := by
    intro t ht
    unfold Kellogg.mu
    rw [if_neg (not_le.2 (by linarith)), if_neg (not_le.2 (by linarith)),
      if_neg (not_le.2 ht)]
  have hcont : Continuous (Kellogg.mu_IV Real.cos Real.pi) := by
    unfold Kellogg.mu_IV
    fun_prop
  have t1 : Filter.Tendsto (Kellogg.mu Real.cos Real.pi)
      (nhdsWithin (3 * Real.pi / 2) (Set.Ioi (3 * Real.pi / 2)))
      (nhds (Kellogg.mu Real.cos Real.pi (3 * Real.pi / 2))) :=
    h.tendsto.mono_left nhdsWithin_le_nhds
  have t2 : Filter.Tendsto (Kellogg.mu_IV Real.cos Real.pi)
      (nhdsWithin (3 * Real.pi / 2) (Set.Ioi (3 * Real.pi / 2)))
      (nhds (Kellogg.mu_IV Real.cos Real.pi (3 * Real.pi / 2))) :=
    hcont.continuousAt.tendsto.mono_left nhdsWithin_le_nhds
  have t3 : Filter.Tendsto (Kellogg.mu Real.cos Real.pi)
      (nhdsWithin (3 * Real.pi / 2) (Set.Ioi (3 * Real.pi / 2)))
      (nhds (Kellogg.mu_IV Real.cos Real.pi (3 * Real.pi / 2))) :=
    t2.congr' (eventually_nhdsWithin_of_forall (fun t ht => (hright t ht).symm))
  have heq := tendsto_nhds_unique t1 t3
  rw [hval] at heq
  exact absurd heq (ne_of_lt kellogg_mu_III_lt_mu_IV)

/-- C22 fails on the code at `theta = 3π/2`: with the real cosine and `π`, the
branches of `mu` agree at `π/2` and at `π`, and the first branch at `0` agrees with
the last at `2π`, but at `3π/2` the third branch
`cos(SIGMA*TAU)*cos((theta - M_PI + RHO)*TAU)` and the last branch
`cos((M_PI/2 - RHO)*TAU)*cos((theta - 3*M_PI/2 - SIGMA)*TAU)` differ, and `mu` is
not continuous there (across the negative y axis). -/
theorem kellogg_mu_jump_at_three_half_pi :
    Kellogg.mu_I Real.cos Real.pi (Real.pi / 2) = Kellogg.mu_II Real.cos Real.pi (Real.pi / 2) ∧
    Kellogg.mu_II Real.cos Real.pi Real.pi = Kellogg.mu_III Real.cos Real.pi Real.pi ∧
    Kellogg.mu_I Real.cos Real.pi 0 = Kellogg.mu_IV Real.cos Real.pi (2 * Real.pi) ∧
    Kellogg.mu_III Real.cos Real.pi (3 * Real.pi / 2)
      ≠ Kellogg.mu_IV Real.cos Real.pi (3 * Real.pi / 2) ∧
    ¬ ContinuousAt (Kellogg.mu Real.cos Real.pi) (3 * Real.pi / 2) := by
  obtain ⟨h1, h2, h3⟩ := kellogg_mu_agree Real.cos Real.cos_neg Real.pi
  exact ⟨h1, h2, h3, ne_of_lt kellogg_mu_III_lt_mu_IV, kellogg_mu_not_continuous⟩

/-! ## The initial mesh of the Kellogg benchmark (claim C23) -/

/-- A loop that applies `r` once for every index below `n` applies it `n` times. -/
theorem foldl_range_const {M : Type} (r : M → M) (n : Nat) (m : M) :
    (List.range n).foldl (fun mesh _ => r mesh) m = r^[n] m := by
  induction n with
  | zero => rfl
  | succ n ih =>
    rw [List.range_succ, List.foldl_append, ih, Function.iterate_succ_apply']; rfl

/-- The mesh at the start of the adaptivity loop of `benchmarks/kellogg` is the
loaded mesh after `INIT_REF_NUM + 1` calls of `refine_all_elements`. -/
theorem kellogg_initial_mesh_iterate {M : Type} (refine_all_elements : M → M)
    (INIT_REF_NUM : Int) (mesh : M) :
    Kellogg.initial_mesh refine_all_elements INIT_REF_NUM mesh
      = refine_all_elements^[INIT_REF_NUM.toNat + 1] mesh := by
  show refine_all_elements (List.foldl _ _ _) = _
  rw [foldl_range_const, Function.iterate_succ_apply']

/-- C23 fails on the code: with `INIT_REF_NUM = 1` as in the source,
`refine_all_elements` is called twice before the adaptivity loop (once in the loop
over `INIT_REF_NUM`, once more after it); from a mesh of one quad the loop starts
on the mesh refined twice, of 21 elements, not on the mesh refined `INIT_REF_NUM`
times, of 5 elements. -/
theorem kellogg_refined_once_more :
    Kellogg.INIT_REF_NUM = 1 ∧
    Kellogg.initial_mesh Nat.succ Kellogg.INIT_REF_NUM 0 = 2 ∧
    Kellogg.initial_mesh Mesh.refine_all_elements Kellogg.INIT_REF_NUM (Mesh.of_base [.quad])
      = mesh_twice_refined ∧
    (Kellogg.initial_mesh Mesh.refine_all_elements Kellogg.INIT_REF_NUM
      (Mesh.of_base [.quad])).elements.length = 21 ∧
    (Mesh.refine_all_elements^[Kellogg.INIT_REF_NUM.toNat]
      (Mesh.of_base [.quad])).elements.length = 5 := by
  refine ⟨rfl, ?_, ?_, ?_, ?_⟩
  · rw [kellogg_initial_mesh_iterate]; rfl
  · rw [kellogg_initial_mesh_iterate]; rfl
  · decide
  · decide

/-! ## The bubble tables of `gen_hc_gradleg` (claim C24) -/

/-- All orders `(i, j)` with `i, j ≤ 10`, not both zero, checked by evaluation:
position `32*i + j` of `gradleg_quad_bubble_indices` names `qb_i_j`, the list
`qb_i_j` is printed without reading an unwritten entry and has
`(j+1)*i + (i+1)*j` numbers, and position `32*i + j` of
`gradleg_quad_bubble_count` is that number. -/
theorem bubble_tables_checked : ∀ i ∈ List.range 11, ∀ j ∈ List.range 11, (i ≠ 0 ∨ j ≠ 0) →
    gradleg_quad_bubble_indices[32 * i + j]? = some (some (i, j)) ∧
    (qb GenState.filled i j).map List.length = some ((j + 1) * i + (i + 1) * j) ∧
    gradleg_quad_bubble_count[32 * i + j]? = some (((j + 1) * i + (i + 1) * j : Nat) : Int) := by
  decide!

/-- C24: for all `0 ≤ i, j ≤ 10` not both zero, the entry of the printed table
`gradleg_quad_bubble_indices` for order `(i, j)` is the list `qb_i_j`, that list is
printed in full, and the entry of `gradleg_quad_bubble_count` for the same order
is the number of indices in `qb_i_j`, which is `(j+1)*i + (i+1)*j` (that is `j`
for `i = 0`). -/
theorem bubble_count_eq_qb_length (i j : Nat) (hi : i ≤ 10) (hj : j ≤ 10)
    (h : i ≠ 0 ∨ j ≠ 0) :
    gradleg_quad_bubble_indices[32 * i + j]? = some (some (i, j)) ∧
    ∃ l, qb GenState.filled i j = some l ∧
      gradleg_quad_bubble_count[32 * i + j]? = some (l.length : Int) ∧
      l.length = (j + 1) * i + (i + 1) * j ∧
      (i = 0 → l.length = j) := by
  obtain ⟨h1, h2, h3⟩ := bubble_tables_checked i (List.mem_range.2 (by omega)) j
    (List.mem_range.2 (by omega)) h
  refine ⟨h1, ?_⟩
  cases hq : qb GenState.filled i j with
  | none => rw [hq] at h2; simp at h2
  | some l =>
    rw [hq] at h2
    have hl : l.length = (j + 1) * i + (i + 1) * j := by simpa using h2
    refine ⟨l, rfl, ?_, hl, ?_⟩
    · rw [h3, hl]
    · intro h0; rw [hl, h0]; simp

/-- Witness for C24 at order `(1, 2)`: the list `qb_1_2` has seven indices. -/
theorem bubble_count_eq_qb_length_witness :
    (1 ≤ 10 ∧ 2 ≤ 10 ∧ ((1 : Nat) ≠ 0 ∨ (2 : Nat) ≠ 0)) ∧
    (gradleg_quad_bubble_indices[32 * 1 + 2]? = some (some (1, 2)) ∧
    ∃ l, qb GenState.filled 1 2 = some l ∧
      gradleg_quad_bubble_count[32 * 1 + 2]? = some (l.length : Int) ∧
      l.length = (2 + 1) * 1 + (1 + 1) * 2 ∧
      (1 = 0 → l.length = 2)) :=
  ⟨by decide, bubble_count_eq_qb_length 1 2 (by decide) (by decide) (by decide)⟩
end Hermes2D
